import Mathlib

/-!
Verification of the cccedict line parser (src/cedict_entry.rs, src/cedict.rs,
src/errors.rs, src/syllable.rs) against its natural-language specification.

The Rust parser is built from nom combinators; here each combinator chain is
embedded as a total function on lists of characters.  A nom parser of type
IResult becomes a function returning Option (remaining input, value); a nom
recoverable error becomes none.  Recursions that nom performs by repeated
consumption (many0, separated_list0, the line splitter) are modelled with a
fuel argument equal to the input length, which suffices because every loop
iteration consumes at least one character; fuel-irrelevance lemmas recover the
natural unfolding equations.
-/

set_option maxHeartbeats 1000000

namespace Cccedict

/-- Rust string slices are modelled as lists of characters. -/
abbrev Str := List Char

/-- Character class of nom space0 and space1: ASCII space and tab. -/
def isSpaceTab (c : Char) : Bool := c == ' ' || c == '\t'

/-- Character class of nom alpha1: ASCII alphabetic. -/
def isNomAlpha (c : Char) : Bool := ('a' ≤ c && c ≤ 'z') || ('A' ≤ c && c ≤ 'Z')

/-- Character class of nom digit0: ASCII decimal digits. -/
def isNomDigit (c : Char) : Bool := '0' ≤ c && c ≤ '9'

/-- Rust char is_whitespace (the Unicode White_Space property), used by str trim. -/
def isRustWhitespace (c : Char) : Bool :=
  c == ' ' || c == '\t' || c == '\n' || c == '\r' ||
  c == Char.ofNat 0x0B || c == Char.ofNat 0x0C ||
  c == Char.ofNat 0x85 || c == Char.ofNat 0xA0 || c == Char.ofNat 0x1680 ||
  (Char.ofNat 0x2000 ≤ c && c ≤ Char.ofNat 0x200A) ||
  c == Char.ofNat 0x2028 || c == Char.ofNat 0x2029 || c == Char.ofNat 0x202F ||
  c == Char.ofNat 0x205F || c == Char.ofNat 0x3000

/-- Complement of isSpaceTab, the class consumed by is_not(" \t"). -/
def nonSpaceTab (c : Char) : Bool := !(isSpaceTab c)

/-- Class consumed by is_not("]") inside the pinyin block. -/
def nonBracket (c : Char) : Bool := c != ']'

/-- Class consumed by is_not("}") inside the jyutping block. -/
def nonBrace (c : Char) : Bool := c != '}'

/-- Class consumed by is_not("/") inside the definitions list. -/
def nonSlash (c : Char) : Bool := c != '/'

/-- Class consumed by not_line_ending (up to a carriage return or line feed). -/
def nonCrNl (c : Char) : Bool := c != '\r' && c != '\n'

/-- Rust str trim: strip leading and trailing Unicode whitespace. -/
def trim (s : Str) : Str :=
  ((s.dropWhile isRustWhitespace).reverse.dropWhile isRustWhitespace).reverse

/-- src/syllable.rs: one pronunciation together with one tone. -/
structure Syllable where
  pronunciation : Str
  tone : Str
deriving DecidableEq, Repr

/-- src/cedict_entry.rs: the record produced for one dictionary line. -/
structure CedictEntry where
  traditional : Str
  simplified : Str
  pinyin : Option (List Syllable)
  jyutping : Option (List Syllable)
  definitions : Option (List Str)
deriving DecidableEq, Repr

/-- src/errors.rs CedictEntryError (a unit struct). -/
structure CedictEntryError where
deriving DecidableEq, Repr

/-- The Display implementation of CedictEntryError in src/errors.rs. -/
def CedictEntryError.message : String := "invalid cedict entry input"

/-- src/errors.rs CedictError (a unit struct). -/
structure CedictError where
deriving DecidableEq, Repr

/-- Parser not_whitespace: nom is_not(" \t"), one or more characters that are
neither space nor tab, taken maximally. -/
def not_whitespace (i : Str) : Option (Str × Str) :=
  if i.takeWhile nonSpaceTab = [] then none
  else some (i.dropWhile nonSpaceTab, i.takeWhile nonSpaceTab)

/-- nom character::complete::space1: one or more spaces/tabs, taken maximally. -/
def space1 (i : Str) : Option Str :=
  match i with
  | [] => none
  | c :: _ => if isSpaceTab c then some (i.dropWhile isSpaceTab) else none

/-- nom character::complete::space0: zero or more spaces/tabs, taken maximally. -/
def space0 (i : Str) : Str := i.dropWhile isSpaceTab

/-- nom character::complete::not_line_ending (complete version): consume up to
a line ending; a carriage return not followed by a line feed is an error. -/
def notLineEnding (i : Str) : Option (Str × Str) :=
  match i.dropWhile nonCrNl with
  | [] => some ([], i.takeWhile nonCrNl)
  | c :: rs =>
    if c = '\r' then
      match rs with
      | [] => none
      | d :: _ => if d = '\n' then some (c :: rs, i.takeWhile nonCrNl) else none
    else some (c :: rs, i.takeWhile nonCrNl)

/-- Parser comment: the tag "#" followed by not_line_ending. -/
def comment (i : Str) : Option (Str × (Str × Str)) :=
  match i with
  | [] => none
  | c :: r =>
    if c = '#' then
      match notLineEnding r with
      | some (rest, t) => some (rest, (['#'], t))
      | none => none
    else none

/-- Parser syllable: space0, then alpha1 as the pronunciation, then digit0 as
the tone. -/
def syllable (i : Str) : Option (Str × Syllable) :=
  if ((i.dropWhile isSpaceTab).takeWhile isNomAlpha) = [] then none
  else
    some ((((i.dropWhile isSpaceTab).dropWhile isNomAlpha).dropWhile isNomDigit),
      ⟨(i.dropWhile isSpaceTab).takeWhile isNomAlpha,
       ((i.dropWhile isSpaceTab).dropWhile isNomAlpha).takeWhile isNomDigit⟩)

/-- Parser syllables = many0(syllable), with explicit fuel.  Each successful
syllable consumes at least one character, so fuel equal to the input length
makes the fueled function agree with nom's many0 loop. -/
def syllablesF : Nat → Str → Str × List Syllable
  | 0, i => (i, [])
  | fuel + 1, i =>
    match syllable i with
    | none => (i, [])
    | some (r, s) => ((syllablesF fuel r).1, s :: (syllablesF fuel r).2)

/-- Parser syllables: takes a series of possibly undelimited syllables such as
ni3hao3 and returns the parsed Syllables together with the unconsumed rest. -/
def syllables (i : Str) : Str × List Syllable := syllablesF i.length i

/-- Parser pinyin: tag "[", opt(is_not("]")), tag "]"; an empty interior gives
none, otherwise the interior is tokenized by syllables and the unconsumed
tokenizer rest is discarded. -/
def pinyin (i : Str) : Option (Str × Option (List Syllable)) :=
  match i with
  | [] => none
  | c :: r =>
    if c = '[' then
      match r.dropWhile nonBracket with
      | [] => none
      | d :: rest =>
        if d = ']' then
          if r.takeWhile nonBracket = [] then some (rest, none)
          else some (rest, some (syllables (r.takeWhile nonBracket)).2)
        else none
    else none

/-- Parser jyutping: delimited(tag "{", is_not("}"), tag "}"); is_not requires
a non-empty interior; the interior is tokenized by syllables and the
unconsumed tokenizer rest is discarded. -/
def jyutping (i : Str) : Option (Str × List Syllable) :=
  match i with
  | [] => none
  | c :: r =>
    if c = '{' then
      if r.takeWhile nonBrace = [] then none
      else
        match r.dropWhile nonBrace with
        | [] => none
        | d :: rest =>
          if d = '}' then some (rest, (syllables (r.takeWhile nonBrace)).2)
          else none
    else none

/-- separated_list0(tag "/", is_not("/")) of nom, with explicit fuel: a list of
maximal slash-free runs; when a separator is consumed but no element follows,
the loop stops before that separator. -/
def splitDefsF : Nat → Str → Str × List Str
  | 0, i => (i, [])
  | fuel + 1, i =>
    if i.takeWhile nonSlash = [] then (i, [])
    else
      match i.dropWhile nonSlash with
      | [] => ([], [i.takeWhile nonSlash])
      | c :: r2 =>
        if c = '/' then
          if r2.takeWhile nonSlash = [] then (c :: r2, [i.takeWhile nonSlash])
          else ((splitDefsF fuel r2).1, i.takeWhile nonSlash :: (splitDefsF fuel r2).2)
        else (c :: r2, [i.takeWhile nonSlash])

/-- The separated_list0 call of the definitions parser. -/
def splitDefs (i : Str) : Str × List Str := splitDefsF i.length i

/-- Parser definitions: locate the last slash (rfind); without one, succeed
consuming nothing and yield none; otherwise the prefix up to and including the
last slash must be delimited(tag "/", separated_list0(tag "/", is_not("/")),
tag "/"); an empty list yields none, otherwise the trimmed definitions. -/
def definitions (i : Str) : Option (Str × Option (List Str)) :=
  if '/' ∈ i then
    match (i.reverse.dropWhile nonSlash).reverse with
    | [] => none
    | c :: d2 =>
      if c = '/' then
        match (splitDefs d2).1 with
        | [] => none
        | d :: _ =>
          if d = '/' then
            if (splitDefs d2).2 = [] then some ((i.reverse.takeWhile nonSlash).reverse, none)
            else some ((i.reverse.takeWhile nonSlash).reverse, some ((splitDefs d2).2.map trim))
          else none
      else none
  else some (i, none)

/-- nom combinator::opt for parsers that return a value with the rest. -/
def optP (p : Str → Option (Str × α)) (i : Str) : Str × Option α :=
  match p i with
  | some (r, v) => (r, some v)
  | none => (i, none)

/-- Parser cedict_entry: traditional, space1, simplified, space1, pinyin,
space1, opt(jyutping), space0, definitions. -/
def cedict_entry (i : Str) : Option (Str × CedictEntry) :=
  match not_whitespace i with
  | none => none
  | some (i1, traditional) =>
    match space1 i1 with
    | none => none
    | some i2 =>
      match not_whitespace i2 with
      | none => none
      | some (i3, simplified) =>
        match space1 i3 with
        | none => none
        | some i4 =>
          match pinyin i4 with
          | none => none
          | some (i5, py) =>
            match space1 i5 with
            | none => none
            | some i6 =>
              match optP jyutping i6 with
              | (i7, jp) =>
                match definitions (space0 i7) with
                | none => none
                | some (i9, defs) =>
                  some (i9, ⟨traditional, simplified, py, jp, defs⟩)

/-- Parser parse_line: all_consuming(opt(cedict_entry), space0, opt(comment)). -/
def parse_line (i : Str) : Option (Str × Option CedictEntry) :=
  match optP cedict_entry i with
  | (i1, entry) =>
    match optP comment (space0 i1) with
    | (i3, _) => if i3 = [] then some (i3, entry) else none

/-- CedictEntry::new in src/cedict_entry.rs: parse_line, treating a parse
failure like an empty success, and demanding an entry. -/
def CedictEntry.new (input : Str) : Except CedictEntryError CedictEntry :=
  match (parse_line input).getD ([], none) with
  | (_, some entry) => .ok entry
  | (_, none) => .error ⟨⟩

/-- src/cedict.rs: a dictionary is the collection of its entries. -/
structure Cedict where
  entries : List CedictEntry
deriving DecidableEq, Repr

/-- Rust str::split_inclusive on the line feed character, with fuel. -/
def splitInclNlF : Nat → Str → List Str
  | 0, _ => []
  | fuel + 1, s =>
    if s = [] then []
    else
      match s.dropWhile (fun c => c != '\n') with
      | [] => [s.takeWhile (fun c => c != '\n')]
      | c :: rest =>
        if c = '\n' then (s.takeWhile (fun c => c != '\n') ++ ['\n']) :: splitInclNlF fuel rest
        else [s.takeWhile (fun c => c != '\n')]

/-- Rust str::split_inclusive on the line feed character. -/
def splitInclNl (s : Str) : List Str := splitInclNlF s.length s

/-- The per-line map of Rust str::lines: strip one trailing line feed, and
then one trailing carriage return only if a line feed was stripped. -/
def stripNl (l : Str) : Str :=
  match l.reverse with
  | [] => l
  | c :: r =>
    if c = '\n' then
      match r with
      | [] => r.reverse
      | d :: r2 => if d = '\r' then r2.reverse else r.reverse
    else l

/-- Rust str::lines. -/
def rustLines (s : Str) : List Str := (splitInclNl s).map stripNl

/-- Cedict::from_str in src/cedict.rs: keep, in line order, the entries of the
lines on which CedictEntry::new succeeds, and always return Ok. -/
def Cedict.from_str (s : Str) : Except CedictError Cedict :=
  .ok ⟨(rustLines s).filterMap (fun l => (CedictEntry.new l).toOption)⟩

/-! ### Generic list scanning lemmas -/

theorem takeWhile_app (p : Char → Bool) (t r : Str)
    (h1 : ∀ c ∈ t, p c = true) (h2 : ∀ c r2, r = c :: r2 → p c = false) :
    (t ++ r).takeWhile p = t ∧ (t ++ r).dropWhile p = r := by
  induction t with
  | nil =>
    cases r with
    | nil => simp
    | cons c r2 => simp [List.takeWhile_cons, List.dropWhile_cons, h2 c r2 rfl]
  | cons a t ih =>
    have ha : p a = true := h1 a (by simp)
    have iht := ih (fun c hc => h1 c (by simp [hc]))
    simp [List.takeWhile_cons, List.dropWhile_cons, ha, iht.1, iht.2]

theorem takeWhile_app_all (p : Char → Bool) (t r : Str)
    (h1 : ∀ c ∈ t, p c = true) :
    (t ++ r).takeWhile p = t ++ r.takeWhile p ∧ (t ++ r).dropWhile p = r.dropWhile p := by
  induction t with
  | nil => simp
  | cons a t ih =>
    have ha : p a = true := h1 a (by simp)
    have iht := ih (fun c hc => h1 c (by simp [hc]))
    simp [List.takeWhile_cons, List.dropWhile_cons, ha, iht.1, iht.2]

theorem takeWhile_all (p : Char → Bool) (l : Str) (h : ∀ c ∈ l, p c = true) :
    l.takeWhile p = l ∧ l.dropWhile p = [] := by
  have := takeWhile_app_all p l [] h
  simpa using this

theorem takeWhile_nil_of_head (p : Char → Bool) (l : Str)
    (h : ∀ c r2, l = c :: r2 → p c = false) : l.takeWhile p = [] := by
  cases l with
  | nil => rfl
  | cons c r2 => simp [List.takeWhile_cons, h c r2 rfl]

theorem dropWhile_head (p : Char → Bool) :
    ∀ (l : Str) c r, l.dropWhile p = c :: r → p c = false := by
  intro l
  induction l with
  | nil => intro c r h; cases h
  | cons a t ih =>
    intro c r h
    rw [List.dropWhile_cons] at h
    by_cases ha : p a = true
    · exact ih c r (by simpa [ha] using h)
    · simp [ha] at h
      obtain ⟨h1, _⟩ := h
      subst h1
      simpa using ha

theorem mem_takeWhile (p : Char → Bool) :
    ∀ (l : Str) c, c ∈ l.takeWhile p → p c = true := by
  intro l
  induction l with
  | nil => intro c h; cases h
  | cons a t ih =>
    intro c h
    rw [List.takeWhile_cons] at h
    by_cases ha : p a = true
    · simp [ha] at h
      rcases h with h | h
      · subst h; exact ha
      · exact ih c h
    · simp [ha] at h

theorem dropWhile_ne_nil (p : Char → Bool) :
    ∀ (l : Str) c, c ∈ l → p c = false → l.dropWhile p ≠ [] := by
  intro l
  induction l with
  | nil => intro c h; cases h
  | cons a t ih =>
    intro c h hpc
    rw [List.dropWhile_cons]
    by_cases ha : p a = true
    · rw [if_pos ha]
      rcases List.mem_cons.mp h with h1 | h1
      · subst h1; rw [ha] at hpc; cases hpc
      · exact ih c h1 hpc
    · rw [if_neg ha]; simp

theorem length_dropWhile_le (p : Char → Bool) (l : Str) :
    (l.dropWhile p).length ≤ l.length := by
  induction l with
  | nil => simp
  | cons a t ih =>
    rw [List.dropWhile_cons]
    by_cases ha : p a = true
    · simp only [ha, if_true]
      exact Nat.le_succ_of_le ih
    · simp [ha]

theorem dropWhile_cons_false (p : Char → Bool) (c : Char) (t : Str)
    (h : p c = false) : (c :: t).dropWhile p = c :: t := by
  simp [List.dropWhile_cons, h]

/-! ### Fuel irrelevance for the fueled loops -/

theorem syllable_length_lt (i r : Str) (s : Syllable)
    (h : syllable i = some (r, s)) : r.length < i.length := by
  unfold syllable at h
  by_cases hp : ((i.dropWhile isSpaceTab).takeWhile isNomAlpha) = []
  · simp [hp] at h
  · simp only [hp, if_false, Option.some_inj, Prod.mk.injEq] at h
    obtain ⟨hr, _⟩ := h
    have h1 : r.length ≤ ((i.dropWhile isSpaceTab).dropWhile isNomAlpha).length := by
      rw [← hr]; exact length_dropWhile_le _ _
    have h2 : ((i.dropWhile isSpaceTab).dropWhile isNomAlpha).length <
        (i.dropWhile isSpaceTab).length := by
      have hsplit := congrArg List.length
        (List.takeWhile_append_dropWhile (p := isNomAlpha) (l := i.dropWhile isSpaceTab))
      rw [List.length_append] at hsplit
      have : 0 < ((i.dropWhile isSpaceTab).takeWhile isNomAlpha).length :=
        List.length_pos.mpr hp
      omega
    have h3 : (i.dropWhile isSpaceTab).length ≤ i.length := length_dropWhile_le _ _
    omega

theorem syllablesF_nil (fuel : Nat) : syllablesF fuel [] = ([], []) := by
  cases fuel with
  | zero => rfl
  | succ n => simp [syllablesF, syllable]

theorem syllablesF_fuel :
    ∀ fuel1 fuel2 (i : Str), i.length ≤ fuel1 → i.length ≤ fuel2 →
      syllablesF fuel1 i = syllablesF fuel2 i := by
  intro fuel1
  induction fuel1 with
  | zero =>
    intro fuel2 i h1 _
    have : i = [] := List.length_eq_zero.mp (Nat.le_zero.mp h1)
    subst this
    rw [syllablesF_nil, syllablesF_nil]
  | succ n ih =>
    intro fuel2 i h1 h2
    cases fuel2 with
    | zero =>
      have : i = [] := List.length_eq_zero.mp (Nat.le_zero.mp h2)
      subst this
      rw [syllablesF_nil, syllablesF_nil]
    | succ m =>
      cases hs : syllable i with
      | none => simp [syllablesF, hs]
      | some p =>
        obtain ⟨r, s⟩ := p
        have hlt := syllable_length_lt i r s hs
        have hr1 : r.length ≤ n := by omega
        have hr2 : r.length ≤ m := by omega
        simp only [syllablesF, hs]
        rw [ih m r hr1 hr2]

theorem syllables_eq (i : Str) :
    syllables i = match syllable i with
      | none => (i, [])
      | some (r, s) => ((syllables r).1, s :: (syllables r).2) := by
  unfold syllables
  cases hs : syllable i with
  | none =>
    cases i with
    | nil => rfl
    | cons a t =>
      show syllablesF (t.length + 1) (a :: t) = _
      simp [syllablesF, hs]
  | some p =>
    obtain ⟨r, s⟩ := p
    have hlt := syllable_length_lt i r s hs
    cases i with
    | nil => simp [syllable] at hs
    | cons a t =>
      show syllablesF (t.length + 1) (a :: t) = _
      simp only [syllablesF, hs]
      rw [syllablesF_fuel t.length r.length r (by simpa using Nat.lt_succ_iff.mp hlt) le_rfl]

theorem splitDefsF_nil (fuel : Nat) : splitDefsF fuel [] = ([], []) := by
  cases fuel with
  | zero => rfl
  | succ n => simp [splitDefsF]

theorem splitDefsF_fuel :
    ∀ fuel1 fuel2 (i : Str), i.length ≤ fuel1 → i.length ≤ fuel2 →
      splitDefsF fuel1 i = splitDefsF fuel2 i := by
  intro fuel1
  induction fuel1 with
  | zero =>
    intro fuel2 i h1 _
    have : i = [] := List.length_eq_zero.mp (Nat.le_zero.mp h1)
    subst this
    rw [splitDefsF_nil, splitDefsF_nil]
  | succ n ih =>
    intro fuel2 i h1 h2
    cases fuel2 with
    | zero =>
      have : i = [] := List.length_eq_zero.mp (Nat.le_zero.mp h2)
      subst this
      rw [splitDefsF_nil, splitDefsF_nil]
    | succ m =>
      by_cases he : i.takeWhile nonSlash = []
      · simp [splitDefsF, he]
      · cases hd : i.dropWhile nonSlash with
        | nil => simp [splitDefsF, he, hd]
        | cons c r2 =>
          have hc : nonSlash c = false := dropWhile_head nonSlash i c r2 hd
          have hcs : c = '/' := by
            unfold nonSlash at hc
            simpa using hc
          subst hcs
          have hlen : r2.length + 1 < i.length := by
            have hsplit := congrArg List.length
              (List.takeWhile_append_dropWhile (p := nonSlash) (l := i))
            rw [List.length_append, hd] at hsplit
            have : 0 < (i.takeWhile nonSlash).length := List.length_pos.mpr he
            simp at hsplit
            omega
          have hr1 : r2.length ≤ n := by omega
          have hr2 : r2.length ≤ m := by omega
          simp only [splitDefsF, he, if_false, hd]
          rw [ih m r2 hr1 hr2]

theorem splitDefs_eq (i : Str) :
    splitDefs i =
      if i.takeWhile nonSlash = [] then (i, [])
      else
        match i.dropWhile nonSlash with
        | [] => ([], [i.takeWhile nonSlash])
        | c :: r2 =>
          if c = '/' then
            if r2.takeWhile nonSlash = [] then (c :: r2, [i.takeWhile nonSlash])
            else ((splitDefs r2).1, i.takeWhile nonSlash :: (splitDefs r2).2)
          else (c :: r2, [i.takeWhile nonSlash]) := by
  unfold splitDefs
  by_cases he : i.takeWhile nonSlash = []
  · cases i with
    | nil => simp [splitDefsF_nil, he]
    | cons a t =>
      show splitDefsF (t.length + 1) (a :: t) = _
      simp [splitDefsF, he]
  · cases i with
    | nil => simp at he
    | cons a t =>
      show splitDefsF (t.length + 1) (a :: t) = _
      cases hd : (a :: t).dropWhile nonSlash with
      | nil => simp [splitDefsF, he, hd]
      | cons c r2 =>
        have hc : nonSlash c = false := dropWhile_head nonSlash (a :: t) c r2 hd
        have hcs : c = '/' := by
          unfold nonSlash at hc
          simpa using hc
        subst hcs
        by_cases hr2 : r2.takeWhile nonSlash = []
        · simp [splitDefsF, he, hd, hr2]
        · have hlen : r2.length + 1 < (a :: t).length := by
            have hsplit := congrArg List.length
              (List.takeWhile_append_dropWhile (p := nonSlash) (l := a :: t))
            rw [List.length_append, hd] at hsplit
            have : 0 < ((a :: t).takeWhile nonSlash).length := List.length_pos.mpr he
            simp at hsplit ⊢
            omega
          simp only [splitDefsF, he, if_false, hd, hr2]
          rw [splitDefsF_fuel t.length r2.length r2 (by simp at hlen ⊢; omega) le_rfl]

/-! ### Computation and extension lemmas for the individual parsers -/

theorem not_whitespace_app (t r : Str) (h0 : t ≠ [])
    (h1 : ∀ c ∈ t, isSpaceTab c = false)
    (h2 : ∀ c r2, r = c :: r2 → isSpaceTab c = true) :
    not_whitespace (t ++ r) = some (r, t) := by
  have hw := takeWhile_app nonSpaceTab t r
    (fun c hc => by simp [nonSpaceTab, h1 c hc])
    (fun c r2 hc => by simp [nonSpaceTab, h2 c r2 hc])
  unfold not_whitespace
  rw [hw.1, hw.2, if_neg h0]

theorem not_whitespace_decomp (i r t : Str) (h : not_whitespace i = some (r, t)) :
    i = t ++ r ∧ t ≠ [] ∧ (∀ c ∈ t, isSpaceTab c = false) ∧
      ∀ c r2, r = c :: r2 → isSpaceTab c = true := by
  unfold not_whitespace at h
  by_cases ht : i.takeWhile nonSpaceTab = []
  · simp [ht] at h
  · simp only [ht, if_false, Option.some_inj, Prod.mk.injEq] at h
    obtain ⟨hr, htw⟩ := h
    subst hr; subst htw
    refine ⟨(List.takeWhile_append_dropWhile ..).symm, ht, ?_, ?_⟩
    · intro c hc
      have := mem_takeWhile nonSpaceTab i c hc
      simpa [nonSpaceTab] using this
    · intro c r2 hc
      have := dropWhile_head nonSpaceTab i c r2 hc
      simpa [nonSpaceTab] using this

theorem not_whitespace_ne_nil (i r t : Str) (h : not_whitespace i = some (r, t)) :
    i ≠ [] := by
  intro hi
  subst hi
  simp [not_whitespace] at h

theorem not_whitespace_ext (i r t X : Str) (h : not_whitespace i = some (r, t))
    (hr : r ≠ []) : not_whitespace (i ++ X) = some (r ++ X, t) := by
  obtain ⟨hi, ht0, ht1, ht2⟩ := not_whitespace_decomp i r t h
  subst hi
  cases r with
  | nil => exact absurd rfl hr
  | cons c r2 =>
    rw [List.append_assoc, List.cons_append]
    exact not_whitespace_app t (c :: (r2 ++ X)) ht0 ht1
      (fun d d2 hd => by
        rw [(List.cons.inj hd).1.symm]
        exact ht2 c r2 rfl)

theorem space1_app (sp r : Str) (h0 : sp ≠ [])
    (h1 : ∀ c ∈ sp, isSpaceTab c = true)
    (h2 : ∀ c r2, r = c :: r2 → isSpaceTab c = false) :
    space1 (sp ++ r) = some r := by
  have hw := takeWhile_app isSpaceTab sp r h1 h2
  cases sp with
  | nil => exact absurd rfl h0
  | cons a t =>
    have ha : isSpaceTab a = true := h1 a (by simp)
    have hdw : (a :: (t ++ r)).dropWhile isSpaceTab = r := by
      have h2' := hw.2
      simpa using h2'
    show space1 (a :: (t ++ r)) = some r
    simp only [space1, ha, if_true, hdw]

theorem space1_cons (c : Char) (r : Str) (hc : isSpaceTab c = true)
    (h2 : ∀ d r2, r = d :: r2 → isSpaceTab d = false) :
    space1 (c :: r) = some r := by
  have := space1_app [c] r (by simp) (by intro d hd; simp at hd; subst hd; exact hc) h2
  simpa using this

theorem space1_decomp (i r : Str) (h : space1 i = some r) :
    i = i.takeWhile isSpaceTab ++ r ∧ i.takeWhile isSpaceTab ≠ [] ∧
      (∀ c ∈ i.takeWhile isSpaceTab, isSpaceTab c = true) ∧
      ∀ c r2, r = c :: r2 → isSpaceTab c = false := by
  unfold space1 at h
  cases i with
  | nil => cases h
  | cons a t =>
    by_cases ha : isSpaceTab a = true
    · simp only [ha, if_pos, Option.some_inj] at h
      subst h
      refine ⟨(List.takeWhile_append_dropWhile ..).symm, ?_, ?_, ?_⟩
      · simp [List.takeWhile_cons, ha]
      · intro c hc; exact mem_takeWhile isSpaceTab (a :: t) c hc
      · intro c r2 hc; exact dropWhile_head isSpaceTab (a :: t) c r2 hc
    · simp [ha] at h

theorem space1_ne_nil (i r : Str) (h : space1 i = some r) : i ≠ [] := by
  intro hi; subst hi; cases h

theorem space1_ext (i r X : Str) (h : space1 i = some r) (hr : r ≠ []) :
    space1 (i ++ X) = some (r ++ X) := by
  obtain ⟨hi, h0, h1, h2⟩ := space1_decomp i r h
  cases r with
  | nil => exact absurd rfl hr
  | cons c r2 =>
    conv_lhs => rw [hi]
    rw [List.append_assoc, List.cons_append]
    exact space1_app _ (c :: (r2 ++ X)) h0 h1
      (fun d d2 hd => by
        rw [(List.cons.inj hd).1.symm]
        exact h2 c r2 rfl)

theorem space0_app (sp r : Str) (h1 : ∀ c ∈ sp, isSpaceTab c = true)
    (h2 : ∀ c r2, r = c :: r2 → isSpaceTab c = false) :
    space0 (sp ++ r) = r :=
  (takeWhile_app isSpaceTab sp r h1 h2).2

theorem space0_decomp (i : Str) :
    i = i.takeWhile isSpaceTab ++ space0 i ∧
      (∀ c ∈ i.takeWhile isSpaceTab, isSpaceTab c = true) ∧
      ∀ c r2, space0 i = c :: r2 → isSpaceTab c = false :=
  ⟨(List.takeWhile_append_dropWhile ..).symm,
   fun c hc => mem_takeWhile isSpaceTab i c hc,
   fun c r2 hc => dropWhile_head isSpaceTab i c r2 hc⟩

theorem space0_ext (i X : Str) (h : space0 i ≠ []) :
    space0 (i ++ X) = space0 i ++ X := by
  obtain ⟨hi, h1, h2⟩ := space0_decomp i
  cases hs : space0 i with
  | nil => exact absurd hs h
  | cons c r2 =>
    rw [hs] at hi
    calc space0 (i ++ X) = space0 (i.takeWhile isSpaceTab ++ (c :: (r2 ++ X))) := by
            conv_lhs => rw [hi]
            rw [List.append_assoc, List.cons_append]
      _ = c :: (r2 ++ X) := space0_app _ (c :: (r2 ++ X)) h1
            (fun d d2 hd => by
              rw [(List.cons.inj hd).1.symm]
              exact h2 c r2 hs)
      _ = (c :: r2) ++ X := by simp

theorem space0_all_ext (i X : Str) (h : space0 i = []) :
    space0 (i ++ X) = space0 X := by
  have hall : ∀ c ∈ i, isSpaceTab c = true := by
    intro c hc
    by_contra hcc
    exact dropWhile_ne_nil isSpaceTab i c hc (Bool.not_eq_true _ ▸ hcc) h
  exact (takeWhile_app_all isSpaceTab i X hall).2

theorem pinyin_app (int r : Str) (h1 : ∀ c ∈ int, nonBracket c = true) :
    pinyin ('[' :: int ++ ']' :: r) =
      some (r, if int = [] then none else some (syllables int).2) := by
  have hw := takeWhile_app nonBracket int (']' :: r) h1
    (fun c r2 hc => by
      rw [(List.cons.inj hc).1.symm]
      simp [nonBracket])
  show pinyin ('[' :: (int ++ ']' :: r)) = _
  simp only [pinyin, if_true]
  rw [hw.1, hw.2]
  show (if int = [] then some (r, (none : Option (List Syllable)))
      else some (r, some (syllables int).2)) = _
  by_cases hint : int = []
  · rw [if_pos hint, if_pos hint]
  · rw [if_neg hint, if_neg hint]

theorem pinyin_decomp (i r : Str) (v : Option (List Syllable))
    (h : pinyin i = some (r, v)) :
    ∃ int, i = '[' :: int ++ ']' :: r ∧ (∀ c ∈ int, nonBracket c = true) ∧
      v = if int = [] then none else some (syllables int).2 := by
  cases i with
  | nil => cases h
  | cons a t =>
    simp only [pinyin] at h
    by_cases ha : a = '['
    · subst ha
      rw [if_pos rfl] at h
      cases hd : t.dropWhile nonBracket with
      | nil =>
        rw [hd] at h
        have h' : (none : Option (Str × Option (List Syllable))) = some (r, v) := h
        cases h'
      | cons c rest =>
        have hc : nonBracket c = false := dropWhile_head nonBracket t c rest hd
        have hcs : c = ']' := by
          unfold nonBracket at hc
          simpa using hc
        subst hcs
        rw [hd] at h
        have h' : (if t.takeWhile nonBracket = [] then some (rest, (none : Option (List Syllable)))
            else some (rest, some (syllables (t.takeWhile nonBracket)).2)) = some (r, v) := h
        have hteq : t = t.takeWhile nonBracket ++ ']' :: rest := by
          conv_lhs => rw [(List.takeWhile_append_dropWhile (p := nonBracket) (l := t)).symm]
          rw [hd]
        by_cases hint : t.takeWhile nonBracket = []
        · rw [if_pos hint] at h'
          injection h' with hp
          injection hp with hr hv
          refine ⟨t.takeWhile nonBracket, ?_, ?_, ?_⟩
          · rw [← hr]; simpa using hteq
          · intro c hc; exact mem_takeWhile nonBracket t c hc
          · rw [if_pos hint]; exact hv.symm
        · rw [if_neg hint] at h'
          injection h' with hp
          injection hp with hr hv
          refine ⟨t.takeWhile nonBracket, ?_, ?_, ?_⟩
          · rw [← hr]; simpa using hteq
          · intro c hc; exact mem_takeWhile nonBracket t c hc
          · rw [if_neg hint]; exact hv.symm
    · rw [if_neg ha] at h
      cases h

theorem pinyin_ext (i r : Str) (v : Option (List Syllable)) (X : Str)
    (h : pinyin i = some (r, v)) : pinyin (i ++ X) = some (r ++ X, v) := by
  obtain ⟨int, hi, h1, hv⟩ := pinyin_decomp i r v h
  subst hi
  have hass : ('[' :: int ++ ']' :: r) ++ X = '[' :: int ++ ']' :: (r ++ X) := by
    simp
  rw [hass, pinyin_app int (r ++ X) h1, hv]

theorem jyutping_app (int r : Str) (h0 : int ≠ [])
    (h1 : ∀ c ∈ int, nonBrace c = true) :
    jyutping ('{' :: int ++ '}' :: r) = some (r, (syllables int).2) := by
  have hw := takeWhile_app nonBrace int ('}' :: r) h1
    (fun c r2 hc => by
      rw [(List.cons.inj hc).1.symm]
      simp [nonBrace])
  show jyutping ('{' :: (int ++ '}' :: r)) = _
  simp only [jyutping, if_true]
  rw [hw.1, hw.2, if_neg h0]
  rfl

theorem jyutping_decomp (i r : Str) (v : List Syllable)
    (h : jyutping i = some (r, v)) :
    ∃ int, i = '{' :: int ++ '}' :: r ∧ int ≠ [] ∧
      (∀ c ∈ int, nonBrace c = true) ∧ v = (syllables int).2 := by
  cases i with
  | nil => cases h
  | cons a t =>
    simp only [jyutping] at h
    by_cases ha : a = '{'
    · subst ha
      rw [if_pos rfl] at h
      by_cases hint : t.takeWhile nonBrace = []
      · rw [if_pos hint] at h; cases h
      · rw [if_neg hint] at h
        cases hd : t.dropWhile nonBrace with
        | nil =>
          rw [hd] at h
          have h' : (none : Option (Str × List Syllable)) = some (r, v) := h
          cases h'
        | cons c rest =>
          have hc : nonBrace c = false := dropWhile_head nonBrace t c rest hd
          have hcs : c = '}' := by
            unfold nonBrace at hc
            simpa using hc
          subst hcs
          rw [hd] at h
          have h' : some (rest, (syllables (t.takeWhile nonBrace)).2) = some (r, v) := h
          injection h' with hp
          injection hp with hr hv
          have hteq : t = t.takeWhile nonBrace ++ '}' :: rest := by
            conv_lhs => rw [(List.takeWhile_append_dropWhile (p := nonBrace) (l := t)).symm]
            rw [hd]
          refine ⟨t.takeWhile nonBrace, ?_, hint, ?_, hv.symm⟩
          · rw [← hr]; simpa using hteq
          · intro c hc; exact mem_takeWhile nonBrace t c hc
    · rw [if_neg ha] at h
      cases h

theorem jyutping_ext (i r : Str) (v : List Syllable) (X : Str)
    (h : jyutping i = some (r, v)) : jyutping (i ++ X) = some (r ++ X, v) := by
  obtain ⟨int, hi, h0, h1, hv⟩ := jyutping_decomp i r v h
  subst hi
  have hass : ('{' :: int ++ '}' :: r) ++ X = '{' :: int ++ '}' :: (r ++ X) := by
    simp
  rw [hass, jyutping_app int (r ++ X) h0 h1, hv]

theorem jyutping_not_open (c : Char) (t : Str) (h : c ≠ '{') :
    jyutping (c :: t) = none := by
  simp only [jyutping, if_neg h]

theorem jyutping_empty_interior (t : Str) : jyutping ('{' :: '}' :: t) = none := by
  simp only [jyutping, if_pos rfl]
  have : nonBrace '}' = false := by simp [nonBrace]
  simp [List.takeWhile_cons, this]

theorem comment_full (ctext : Str) (h : ∀ c ∈ ctext, nonCrNl c = true) :
    comment ('#' :: ctext) = some ([], (['#'], ctext)) := by
  have hw := takeWhile_all nonCrNl ctext h
  simp only [comment, notLineEnding, hw.1, hw.2, if_pos rfl]
  rfl

/-! ### The definitions parser: last-slash split -/

/-- The part of the definitions parser that depends only on the text up to and
including the last slash (helper for stating lemmas; not part of the source). -/
def defsCore (A : Str) : Option (Option (List Str)) :=
  match A ++ ['/'] with
  | [] => none
  | c :: d2 =>
    if c = '/' then
      match (splitDefs d2).1 with
      | [] => none
      | d :: _ =>
        if d = '/' then
          if (splitDefs d2).2 = [] then some none
          else some (some ((splitDefs d2).2.map trim))
        else none
    else none

theorem revSplit (A B : Str) (hB : ∀ c ∈ B, nonSlash c = true) :
    ((A ++ '/' :: B).reverse.takeWhile nonSlash).reverse = B ∧
    ((A ++ '/' :: B).reverse.dropWhile nonSlash).reverse = A ++ ['/'] := by
  have hrev : (A ++ '/' :: B).reverse = B.reverse ++ '/' :: A.reverse := by
    simp
  have hw := takeWhile_app nonSlash B.reverse ('/' :: A.reverse)
    (fun c hc => hB c (List.mem_reverse.mp hc))
    (fun c r2 hc => by
      rw [(List.cons.inj hc).1.symm]
      simp [nonSlash])
  constructor
  · rw [hrev, hw.1, List.reverse_reverse]
  · rw [hrev, hw.2]
    simp

theorem exists_last_slash (i : Str) (h : '/' ∈ i) :
    ∃ A B, i = A ++ '/' :: B ∧ ∀ c ∈ B, nonSlash c = true := by
  have hdw : i.reverse.dropWhile nonSlash ≠ [] := by
    apply dropWhile_ne_nil nonSlash i.reverse '/' (List.mem_reverse.mpr h)
    simp [nonSlash]
  cases hd : i.reverse.dropWhile nonSlash with
  | nil => exact absurd hd hdw
  | cons c rA =>
    have hc : nonSlash c = false := dropWhile_head nonSlash i.reverse c rA hd
    have hcs : c = '/' := by
      unfold nonSlash at hc
      simpa using hc
    subst hcs
    have hteq : i.reverse = i.reverse.takeWhile nonSlash ++ '/' :: rA := by
      conv_lhs => rw [(List.takeWhile_append_dropWhile (p := nonSlash) (l := i.reverse)).symm]
      rw [hd]
    refine ⟨rA.reverse, (i.reverse.takeWhile nonSlash).reverse, ?_, ?_⟩
    · calc i = i.reverse.reverse := (List.reverse_reverse i).symm
        _ = (i.reverse.takeWhile nonSlash ++ '/' :: rA).reverse := by rw [← hteq]
        _ = rA.reverse ++ '/' :: (i.reverse.takeWhile nonSlash).reverse := by
            simp
    · intro c hc2
      exact mem_takeWhile nonSlash i.reverse c (List.mem_reverse.mp hc2)

theorem definitions_split (A B : Str) (hB : ∀ c ∈ B, nonSlash c = true) :
    definitions (A ++ '/' :: B) = (defsCore A).map (fun v => (B, v)) := by
  have hmem : '/' ∈ A ++ '/' :: B := by simp
  have hs := revSplit A B hB
  unfold definitions defsCore
  rw [if_pos hmem, hs.1, hs.2]
  generalize A ++ ['/'] = l
  cases l with
  | nil => rfl
  | cons c d2 =>
    by_cases hc : c = '/'
    · cases hsp : (splitDefs d2).1 with
      | nil => simp [hc, hsp]
      | cons d ds =>
        by_cases hd : d = '/'
        · by_cases hes : (splitDefs d2).2 = []
          · simp [hc, hsp, hd, hes]
          · simp [hc, hsp, hd, hes]
        · simp [hc, hsp, hd]
    · simp [hc]

theorem definitions_noslash (i : Str) (h : ∀ c ∈ i, nonSlash c = true) :
    definitions i = some (i, none) := by
  have hm : '/' ∉ i := by
    intro hmem
    have := h '/' hmem
    simp [nonSlash] at this
  unfold definitions
  rw [if_neg hm]

theorem definitions_rest_noslash (i r : Str) (v : Option (List Str))
    (h : definitions i = some (r, v)) : ∀ c ∈ r, nonSlash c = true := by
  by_cases hm : '/' ∈ i
  · obtain ⟨A, B, hi, hB⟩ := exists_last_slash i hm
    subst hi
    rw [definitions_split A B hB] at h
    cases hdc : defsCore A with
    | none =>
      rw [hdc] at h
      have h' : (none : Option (Str × Option (List Str))) = some (r, v) := h
      cases h'
    | some w =>
      rw [hdc] at h
      have h' : some (B, w) = some (r, v) := h
      injection h' with hp
      injection hp with hr hv
      subst hr
      exact hB
  · have hi : ∀ c ∈ i, nonSlash c = true := by
      intro c hc
      have hcs : c ≠ '/' := fun he => hm (he ▸ hc)
      simp [nonSlash, hcs]
    rw [definitions_noslash i hi] at h
    injection h with hp
    injection hp with hr hv
    subst hr
    exact hi

theorem definitions_ext (i r : Str) (v : Option (List Str)) (X : Str)
    (h : definitions i = some (r, v)) (hX : ∀ c ∈ X, nonSlash c = true) :
    definitions (i ++ X) = some (r ++ X, v) := by
  by_cases hm : '/' ∈ i
  · obtain ⟨A, B, hi, hB⟩ := exists_last_slash i hm
    subst hi
    rw [definitions_split A B hB] at h
    have hBX : ∀ c ∈ B ++ X, nonSlash c = true := by
      intro c hc
      rcases List.mem_append.mp hc with h1 | h1
      exacts [hB c h1, hX c h1]
    have hass : (A ++ '/' :: B) ++ X = A ++ '/' :: (B ++ X) := by simp
    rw [hass, definitions_split A (B ++ X) hBX]
    cases hdc : defsCore A with
    | none =>
      rw [hdc] at h
      have h' : (none : Option (Str × Option (List Str))) = some (r, v) := h
      cases h'
    | some w =>
      rw [hdc] at h
      have h' : some (B, w) = some (r, v) := h
      injection h' with hp
      injection hp with hr hv
      subst hr
      subst hv
      rfl
  · have hi : ∀ c ∈ i, nonSlash c = true := by
      intro c hc
      have hcs : c ≠ '/' := fun he => hm (he ▸ hc)
      simp [nonSlash, hcs]
    rw [definitions_noslash i hi] at h
    injection h with hp
    injection hp with hr hv
    subst hr
    subst hv
    exact definitions_noslash (i ++ X) (by
      intro c hc
      rcases List.mem_append.mp hc with h1 | h1
      exacts [hi c h1, hX c h1])

theorem splitDefs_last (D : Str) (hD : D ≠ []) (hDc : ∀ c ∈ D, nonSlash c = true) :
    splitDefs (D ++ ['/']) = (['/'], [D]) := by
  have hw := takeWhile_app nonSlash D ['/'] hDc
    (fun c r2 hc => by
      rw [(List.cons.inj hc).1.symm]
      simp [nonSlash])
  rw [splitDefs_eq, hw.1, hw.2, if_neg hD]
  rfl

theorem splitDefs_two (D1 D2 : Str) (h1 : D1 ≠ []) (h1c : ∀ c ∈ D1, nonSlash c = true)
    (h2 : D2 ≠ []) (h2c : ∀ c ∈ D2, nonSlash c = true) :
    splitDefs (D1 ++ '/' :: (D2 ++ ['/'])) = (['/'], [D1, D2]) := by
  have hw := takeWhile_app nonSlash D1 ('/' :: (D2 ++ ['/'])) h1c
    (fun c r2 hc => by
      rw [(List.cons.inj hc).1.symm]
      simp [nonSlash])
  have hw2 := takeWhile_app nonSlash D2 ['/'] h2c
    (fun c r2 hc => by
      rw [(List.cons.inj hc).1.symm]
      simp [nonSlash])
  rw [splitDefs_eq, hw.1, hw.2, if_neg h1]
  show (if (D2 ++ ['/']).takeWhile nonSlash = []
      then ('/' :: (D2 ++ ['/']), [D1])
      else ((splitDefs (D2 ++ ['/'])).1, D1 :: (splitDefs (D2 ++ ['/'])).2)) = (['/'], [D1, D2])
  rw [hw2.1, if_neg h2, splitDefs_last D2 h2 h2c]

theorem defsCore_one (D1 : Str) (h1 : D1 ≠ []) (h1c : ∀ c ∈ D1, nonSlash c = true) :
    defsCore ('/' :: D1) = some (some [trim D1]) := by
  unfold defsCore
  have hass : ('/' :: D1) ++ ['/'] = '/' :: (D1 ++ ['/']) := by simp
  rw [hass]
  show (match (splitDefs (D1 ++ ['/'])).1 with
      | [] => (none : Option (Option (List Str)))
      | d :: _ =>
        if d = '/' then
          if (splitDefs (D1 ++ ['/'])).2 = [] then some none
          else some (some ((splitDefs (D1 ++ ['/'])).2.map trim))
        else none) = some (some [trim D1])
  rw [splitDefs_last D1 h1 h1c]
  rfl

theorem defsCore_two (D1 D2 : Str) (h1 : D1 ≠ []) (h1c : ∀ c ∈ D1, nonSlash c = true)
    (h2 : D2 ≠ []) (h2c : ∀ c ∈ D2, nonSlash c = true) :
    defsCore ('/' :: D1 ++ '/' :: D2) = some (some [trim D1, trim D2]) := by
  unfold defsCore
  have hass : ('/' :: D1 ++ '/' :: D2) ++ ['/'] = '/' :: (D1 ++ '/' :: (D2 ++ ['/'])) := by
    simp
  rw [hass]
  show (match (splitDefs (D1 ++ '/' :: (D2 ++ ['/']))).1 with
      | [] => (none : Option (Option (List Str)))
      | d :: _ =>
        if d = '/' then
          if (splitDefs (D1 ++ '/' :: (D2 ++ ['/']))).2 = [] then some none
          else some (some ((splitDefs (D1 ++ '/' :: (D2 ++ ['/']))).2.map trim))
        else none) = some (some [trim D1, trim D2])
  rw [splitDefs_two D1 D2 h1 h1c h2 h2c]
  rfl

theorem definitions_one (D1 : Str) (h1 : D1 ≠ []) (h1c : ∀ c ∈ D1, nonSlash c = true) :
    definitions ('/' :: D1 ++ ['/']) = some ([], some [trim D1]) := by
  have hass : '/' :: D1 ++ ['/'] = ('/' :: D1) ++ '/' :: [] := by simp
  rw [hass, definitions_split ('/' :: D1) [] (by simp), defsCore_one D1 h1 h1c]
  rfl

theorem definitions_two (D1 D2 : Str) (h1 : D1 ≠ []) (h1c : ∀ c ∈ D1, nonSlash c = true)
    (h2 : D2 ≠ []) (h2c : ∀ c ∈ D2, nonSlash c = true) :
    definitions ('/' :: D1 ++ '/' :: D2 ++ ['/']) = some ([], some [trim D1, trim D2]) := by
  have hass : '/' :: D1 ++ '/' :: D2 ++ ['/'] = ('/' :: D1 ++ '/' :: D2) ++ '/' :: [] := by
    simp
  rw [hass, definitions_split ('/' :: D1 ++ '/' :: D2) [] (by simp),
    defsCore_two D1 D2 h1 h1c h2 h2c]
  rfl

/-! ### Character classes of fully tokenized pronunciation blocks -/

theorem syllable_decomp (i r : Str) (s : Syllable) (h : syllable i = some (r, s)) :
    i = i.takeWhile isSpaceTab ++ (s.pronunciation ++ (s.tone ++ r)) ∧
      (∀ c ∈ i.takeWhile isSpaceTab, isSpaceTab c = true) ∧
      (∀ c ∈ s.pronunciation, isNomAlpha c = true) ∧
      ∀ c ∈ s.tone, isNomDigit c = true := by
  unfold syllable at h
  by_cases hp : ((i.dropWhile isSpaceTab).takeWhile isNomAlpha) = []
  · simp [hp] at h
  · rw [if_neg hp] at h
    injection h with hp2
    injection hp2 with hr hs
    subst hr
    subst hs
    refine ⟨?_, ?_, ?_, ?_⟩
    · conv_lhs => rw [(List.takeWhile_append_dropWhile (p := isSpaceTab) (l := i)).symm]
      congr 1
      conv_lhs =>
        rw [(List.takeWhile_append_dropWhile (p := isNomAlpha)
          (l := i.dropWhile isSpaceTab)).symm]
      congr 1
      exact (List.takeWhile_append_dropWhile ..).symm
    · intro c hc; exact mem_takeWhile _ _ _ hc
    · intro c hc; exact mem_takeWhile _ _ _ hc
    · intro c hc; exact mem_takeWhile _ _ _ hc

theorem syllables_chars :
    ∀ fuel (i : Str), i.length ≤ fuel → (syllablesF fuel i).1 = [] →
      ∀ c ∈ i, (isSpaceTab c || isNomAlpha c || isNomDigit c) = true := by
  intro fuel
  induction fuel with
  | zero =>
    intro i h1 _ c hc
    have hnil : i = [] := List.length_eq_zero.mp (Nat.le_zero.mp h1)
    subst hnil
    cases hc
  | succ n ih =>
    intro i h1 h2 c hc
    cases hs : syllable i with
    | none =>
      have heq : syllablesF (n + 1) i = (i, []) := by simp [syllablesF, hs]
      rw [heq] at h2
      have : i = [] := h2
      subst this
      cases hc
    | some p =>
      obtain ⟨r, s⟩ := p
      have hd := syllable_decomp i r s hs
      have hlt := syllable_length_lt i r s hs
      have heq : syllablesF (n + 1) i = ((syllablesF n r).1, s :: (syllablesF n r).2) := by
        simp [syllablesF, hs]
      rw [heq] at h2
      rw [hd.1] at hc
      rcases List.mem_append.mp hc with h3 | h3
      · have := hd.2.1 c h3; simp [this]
      · rcases List.mem_append.mp h3 with h4 | h4
        · have := hd.2.2.1 c h4; simp [this]
        · rcases List.mem_append.mp h4 with h5 | h5
          · have := hd.2.2.2 c h5; simp [this]
          · exact ih r (by omega) h2 c h5

theorem syllables_full_chars (i : Str) (h : (syllables i).1 = []) :
    ∀ c ∈ i, (isSpaceTab c || isNomAlpha c || isNomDigit c) = true :=
  syllables_chars i.length i le_rfl h

theorem class_nonBracket (c : Char)
    (h : (isSpaceTab c || isNomAlpha c || isNomDigit c) = true) :
    nonBracket c = true := by
  have hne : c ≠ ']' := by
    rintro rfl
    exact absurd h (by decide)
  simp [nonBracket, hne]

theorem class_nonBrace (c : Char)
    (h : (isSpaceTab c || isNomAlpha c || isNomDigit c) = true) :
    nonBrace c = true := by
  have hne : c ≠ '}' := by
    rintro rfl
    exact absurd h (by decide)
  simp [nonBrace, hne]

theorem syllablesF_suffix : ∀ fuel (i : Str), ∃ t, i = t ++ (syllablesF fuel i).1 := by
  intro fuel
  induction fuel with
  | zero => intro i; exact ⟨[], rfl⟩
  | succ n ih =>
    intro i
    cases hs : syllable i with
    | none =>
      have heq : syllablesF (n + 1) i = (i, []) := by simp [syllablesF, hs]
      exact ⟨[], by rw [heq]; rfl⟩
    | some p =>
      obtain ⟨r, s⟩ := p
      have hd := syllable_decomp i r s hs
      obtain ⟨t, ht⟩ := ih r
      have heq : syllablesF (n + 1) i = ((syllablesF n r).1, s :: (syllablesF n r).2) := by
        simp [syllablesF, hs]
      refine ⟨i.takeWhile isSpaceTab ++ (s.pronunciation ++ (s.tone ++ t)), ?_⟩
      rw [heq]
      calc i = i.takeWhile isSpaceTab ++ (s.pronunciation ++ (s.tone ++ r)) := hd.1
        _ = i.takeWhile isSpaceTab ++ (s.pronunciation ++ (s.tone ++ (t ++ (syllablesF n r).1))) := by
            rw [← ht]
        _ = i.takeWhile isSpaceTab ++ (s.pronunciation ++ (s.tone ++ t)) ++ (syllablesF n r).1 := by
            simp

theorem syllables_suffix (i : Str) : ∃ t, i = t ++ (syllables i).1 :=
  syllablesF_suffix i.length i

/-! ### Line-level computation lemmas -/

theorem space1_all (sp : Str) (h0 : sp ≠ []) (h1 : ∀ c ∈ sp, isSpaceTab c = true) :
    space1 sp = some [] := by
  have h := space1_app sp [] h0 h1 (fun c r2 hc => by cases hc)
  simpa using h

theorem space0_cons_false (c : Char) (t : Str) (h : isSpaceTab c = false) :
    space0 (c :: t) = c :: t :=
  dropWhile_cons_false isSpaceTab c t h

theorem optP_some (p : Str → Option (Str × α)) (i r : Str) (v : α)
    (h : p i = some (r, v)) : optP p i = (r, some v) := by
  unfold optP
  rw [h]

theorem optP_none (p : Str → Option (Str × α)) (i : Str)
    (h : p i = none) : optP p i = (i, none) := by
  unfold optP
  rw [h]

theorem parse_line_of_entry (L : Str) (e : CedictEntry)
    (h : cedict_entry L = some ([], e)) : parse_line L = some ([], some e) := by
  unfold parse_line
  rw [optP_some cedict_entry L [] e h]
  rfl

theorem parse_line_of_entry_comment (L : Str) (e : CedictEntry) (W C : Str)
    (h : cedict_entry L = some (W ++ '#' :: C, e))
    (hW : ∀ c ∈ W, isSpaceTab c = true)
    (hC : ∀ c ∈ C, nonCrNl c = true) :
    parse_line L = some ([], some e) := by
  unfold parse_line
  rw [optP_some cedict_entry L (W ++ '#' :: C) e h]
  have hs : space0 (W ++ '#' :: C) = '#' :: C :=
    space0_app W ('#' :: C) hW
      (fun d r2 hd => by rw [(List.cons.inj hd).1.symm]; decide)
  have hcm : optP comment ('#' :: C) = ([], some (['#'], C)) :=
    optP_some comment ('#' :: C) [] (['#'], C) (comment_full C hC)
  simp only [hs, hcm]
  rfl

theorem parse_line_no_entry (L : Str) (h : cedict_entry L = none) :
    ∀ r e, parse_line L ≠ some (r, some e) := by
  intro r e hcontra
  unfold parse_line at hcontra
  rw [optP_none cedict_entry L h] at hcontra
  cases hopt : optP comment (space0 L) with
  | mk i3 w =>
    have h2 : (if i3 = [] then some (i3, (none : Option CedictEntry)) else none)
        = some (r, some e) := by
      have h1 : (match optP comment (space0 L) with
          | (i3, _) => if i3 = [] then some (i3, (none : Option CedictEntry)) else none)
          = some (r, some e) := hcontra
      rw [hopt] at h1
      exact h1
    by_cases hi3 : i3 = []
    · rw [if_pos hi3] at h2
      injection h2 with hp
      injection hp with hr hv
      cases hv
    · rw [if_neg hi3] at h2
      cases h2

theorem defsCore_head_ne (a : Char) (A2 : Str) (ha : a ≠ '/') :
    defsCore (a :: A2) = none := by
  unfold defsCore
  rw [List.cons_append]
  show (if a = '/' then
      (match (splitDefs (A2 ++ ['/'])).1 with
      | [] => (none : Option (Option (List Str)))
      | d :: _ =>
        if d = '/' then
          if (splitDefs (A2 ++ ['/'])).2 = [] then some none
          else some (some ((splitDefs (A2 ++ ['/'])).2.map trim))
        else none)
    else none) = none
  rw [if_neg ha]

theorem definitions_fail_head (c : Char) (t : Str) (hc : c ≠ '/')
    (hm : '/' ∈ c :: t) : definitions (c :: t) = none := by
  obtain ⟨A, B, hi, hB⟩ := exists_last_slash (c :: t) hm
  rw [hi, definitions_split A B hB]
  cases A with
  | nil =>
    rw [List.nil_append] at hi
    exact absurd (List.cons.inj hi).1 hc
  | cons a A2 =>
    have hac : a = c := by
      rw [List.cons_append] at hi
      exact ((List.cons.inj hi).1).symm
    rw [defsCore_head_ne a A2 (fun hco => hc (hac ▸ hco))]
    rfl

theorem cedict_entry_calc (T S PY tail : Str)
    (hT : T ≠ []) (hT2 : ∀ c ∈ T, isSpaceTab c = false)
    (hS : S ≠ []) (hS2 : ∀ c ∈ S, isSpaceTab c = false)
    (hPY : ∀ c ∈ PY, nonBracket c = true) :
    cedict_entry (T ++ (' ' :: (S ++ (' ' :: ('[' :: (PY ++ (']' :: tail))))))) =
      match space1 tail with
      | none => none
      | some i6 =>
        match optP jyutping i6 with
        | (i7, jp) =>
          match definitions (space0 i7) with
          | none => none
          | some (i9, defs) =>
            some (i9, ⟨T, S, if PY = [] then none else some (syllables PY).2, jp, defs⟩) := by
  have h1 : not_whitespace (T ++ (' ' :: (S ++ (' ' :: ('[' :: (PY ++ (']' :: tail)))))))
      = some (' ' :: (S ++ (' ' :: ('[' :: (PY ++ (']' :: tail))))), T) :=
    not_whitespace_app T (' ' :: (S ++ (' ' :: ('[' :: (PY ++ (']' :: tail)))))) hT hT2
      (fun c r2 hc => by rw [(List.cons.inj hc).1.symm]; decide)
  have h2 : space1 (' ' :: (S ++ (' ' :: ('[' :: (PY ++ (']' :: tail))))))
      = some (S ++ (' ' :: ('[' :: (PY ++ (']' :: tail))))) :=
    space1_cons ' ' (S ++ (' ' :: ('[' :: (PY ++ (']' :: tail))))) (by decide)
      (fun d r2 hd => by
        cases S with
        | nil => exact absurd rfl hS
        | cons s0 S2 =>
          rw [List.cons_append] at hd
          rw [(List.cons.inj hd).1.symm]
          exact hS2 s0 (by simp))
  have h3 : not_whitespace (S ++ (' ' :: ('[' :: (PY ++ (']' :: tail)))))
      = some (' ' :: ('[' :: (PY ++ (']' :: tail))), S) :=
    not_whitespace_app S (' ' :: ('[' :: (PY ++ (']' :: tail)))) hS hS2
      (fun c r2 hc => by rw [(List.cons.inj hc).1.symm]; decide)
  have h4 : space1 (' ' :: ('[' :: (PY ++ (']' :: tail))))
      = some ('[' :: (PY ++ (']' :: tail))) :=
    space1_cons ' ' ('[' :: (PY ++ (']' :: tail))) (by decide)
      (fun d r2 hd => by rw [(List.cons.inj hd).1.symm]; decide)
  have h5 : pinyin ('[' :: (PY ++ (']' :: tail)))
      = some (tail, if PY = [] then none else some (syllables PY).2) :=
    pinyin_app PY tail hPY
  simp only [cedict_entry, h1, h2, h3, h4, h5]

/-! ### Suffix lemmas used for the inline-comment extension property -/

theorem optP_eq_some (p : Str → Option (Str × α)) (i i1 : Str) (v : α)
    (h : optP p i = (i1, some v)) : p i = some (i1, v) := by
  unfold optP at h
  cases hp : p i with
  | none =>
    rw [hp] at h
    injection h with h1 h2
    cases h2
  | some q =>
    obtain ⟨r, w⟩ := q
    rw [hp] at h
    injection h with h1 h2
    injection h2 with h3
    rw [h1, h3]

theorem last_slash_mem (l : Str) (hne : l ≠ []) (h : l.getLast? = some '/') :
    '/' ∈ l := by
  rw [List.getLast?_eq_getLast_of_ne_nil hne] at h
  injection h with h2
  rw [← h2]
  exact List.getLast_mem hne

theorem rest_nil_of_last_slash (L P i9 : Str) (hP : P ++ i9 = L)
    (hlast : L.getLast? = some '/')
    (hfree : ∀ c ∈ i9, nonSlash c = true) : i9 = [] := by
  by_contra hne
  have h1 : L.getLast? = i9.getLast? := by
    rw [← hP]
    exact List.getLast?_append_of_ne_nil P hne
  rw [hlast] at h1
  have hmem : '/' ∈ i9 := last_slash_mem i9 hne h1.symm
  have h2 := hfree '/' hmem
  simp [nonSlash] at h2

theorem definitions_suffix (i r : Str) (v : Option (List Str))
    (h : definitions i = some (r, v)) : ∃ A, A ++ r = i := by
  by_cases hm : '/' ∈ i
  · obtain ⟨A, B, hi, hB⟩ := exists_last_slash i hm
    subst hi
    rw [definitions_split A B hB] at h
    cases hdc : defsCore A with
    | none =>
      rw [hdc] at h
      have h2 : (none : Option (Str × Option (List Str))) = some (r, v) := h
      cases h2
    | some w =>
      rw [hdc] at h
      have h2 : some (B, w) = some (r, v) := h
      injection h2 with hp
      injection hp with hr hv
      rw [← hr]
      exact ⟨A ++ ['/'], by simp⟩
  · have hall : ∀ c ∈ i, nonSlash c = true := fun c hc => by
      have hcs : c ≠ '/' := fun he2 => hm (he2 ▸ hc)
      simp [nonSlash, hcs]
    rw [definitions_noslash i hall] at h
    injection h with hp
    injection hp with hr hv
    rw [← hr]
    exact ⟨[], rfl⟩

theorem suffix_trans {a b c : Str} (h1 : ∃ P, P ++ b = a) (h2 : ∃ Q, Q ++ c = b) :
    ∃ R, R ++ c = a := by
  obtain ⟨P, hP⟩ := h1
  obtain ⟨Q, hQ⟩ := h2
  exact ⟨P ++ Q, by rw [List.append_assoc, hQ, hP]⟩

/-! ### Claims -/

/-- C1: for every well-formed input line of the shape T S [PY] {JP} /D1/D2/
(T, S non-empty whitespace-free tokens, PY and JP fully tokenizable syllable
sequences, D1, D2 non-empty slash-free definition texts), parse_line returns
success with an entry whose traditional field equals T, simplified equals S,
pinyin and jyutping equal the syllable sequences tokenized from PY and JP,
and definitions equal D1 and D2 with surrounding whitespace trimmed. -/
theorem parse_line_wellformed (T S PY JP D1 D2 : Str)
    (hT : T ≠ []) (hT2 : ∀ c ∈ T, isSpaceTab c = false)
    (hS : S ≠ []) (hS2 : ∀ c ∈ S, isSpaceTab c = false)
    (hPY : PY ≠ []) (hPYf : (syllables PY).1 = [])
    (hJP : JP ≠ []) (hJPf : (syllables JP).1 = [])
    (hD1 : D1 ≠ []) (hD1c : ∀ c ∈ D1, c ≠ '/')
    (hD2 : D2 ≠ []) (hD2c : ∀ c ∈ D2, c ≠ '/') :
    parse_line (T ++ (' ' :: (S ++ (' ' :: ('[' :: (PY ++ (']' :: (' ' :: ('{' ::
        (JP ++ ('}' :: (' ' :: ('/' :: (D1 ++ ('/' :: (D2 ++ ['/'])))))))))))))))) 
      = some ([], some ⟨T, S, some (syllables PY).2, some (syllables JP).2,
          some [trim D1, trim D2]⟩) := by
  have hPYb : ∀ c ∈ PY, nonBracket c = true :=
    fun c hc => class_nonBracket c (syllables_full_chars PY hPYf c hc)
  have hJPb : ∀ c ∈ JP, nonBrace c = true :=
    fun c hc => class_nonBrace c (syllables_full_chars JP hJPf c hc)
  have hD1s : ∀ c ∈ D1, nonSlash c = true := fun c hc => by simp [nonSlash, hD1c c hc]
  have hD2s : ∀ c ∈ D2, nonSlash c = true := fun c hc => by simp [nonSlash, hD2c c hc]
  apply parse_line_of_entry
  rw [cedict_entry_calc T S PY
    (' ' :: ('{' :: (JP ++ ('}' :: (' ' :: ('/' :: (D1 ++ ('/' :: (D2 ++ ['/'])))))))))
    hT hT2 hS hS2 hPYb]
  have ht1 : space1 (' ' :: ('{' :: (JP ++ ('}' :: (' ' :: ('/' :: (D1 ++ ('/' :: (D2 ++ ['/'])))))))))
      = some ('{' :: (JP ++ ('}' :: (' ' :: ('/' :: (D1 ++ ('/' :: (D2 ++ ['/']))))))))  :=
    space1_cons ' ' ('{' :: (JP ++ ('}' :: (' ' :: ('/' :: (D1 ++ ('/' :: (D2 ++ ['/']))))))))
      (by decide) (fun d r2 hd => by rw [(List.cons.inj hd).1.symm]; decide)
  have ht2 : jyutping ('{' :: (JP ++ ('}' :: (' ' :: ('/' :: (D1 ++ ('/' :: (D2 ++ ['/']))))))))
      = some (' ' :: ('/' :: (D1 ++ ('/' :: (D2 ++ ['/'])))), (syllables JP).2) :=
    jyutping_app JP (' ' :: ('/' :: (D1 ++ ('/' :: (D2 ++ ['/']))))) hJP hJPb
  have ht3 : space0 (' ' :: ('/' :: (D1 ++ ('/' :: (D2 ++ ['/'])))))
      = '/' :: (D1 ++ ('/' :: (D2 ++ ['/']))) := by
    show List.dropWhile isSpaceTab (' ' :: ('/' :: (D1 ++ ('/' :: (D2 ++ ['/'])))))
      = '/' :: (D1 ++ ('/' :: (D2 ++ ['/'])))
    rw [List.dropWhile_cons, if_pos (by decide), List.dropWhile_cons, if_neg (by decide)]
  have ht4 : definitions ('/' :: (D1 ++ ('/' :: (D2 ++ ['/']))))
      = some ([], some [trim D1, trim D2]) := by
    have hd := definitions_two D1 D2 hD1 hD1s hD2 hD2s
    simpa using hd
  simp only [ht1, optP, ht2, ht3, ht4, if_neg hPY]

/-- C1 witness: the theorem applied to the concrete line a b [c1] {d2} /x/y/. -/
theorem parse_line_wellformed_witness :
    parse_line (['a'] ++ (' ' :: (['b'] ++ (' ' :: ('[' :: (['c', '1'] ++ (']' :: (' ' :: ('{' ::
        (['d', '2'] ++ ('}' :: (' ' :: ('/' :: (['x'] ++ ('/' :: (['y'] ++ ['/'])))))))))))))))) 
      = some ([], some ⟨['a'], ['b'], some (syllables ['c', '1']).2,
          some (syllables ['d', '2']).2, some [trim ['x'], trim ['y']]⟩) :=
  parse_line_wellformed ['a'] ['b'] ['c', '1'] ['d', '2'] ['x'] ['y']
    (by decide) (by decide) (by decide) (by decide) (by decide) (by decide)
    (by decide) (by decide) (by decide) (by decide) (by decide) (by decide)

/-- C2 counterexample: the line a b [ ] /d/ has a pinyin block with non-empty
interior (a single space), yet it parses with pinyin = Some of the EMPTY
sequence, contradicting the claim that a non-empty interior always yields a
non-empty syllable sequence. -/
theorem pinyin_nonempty_interior_cex :
    parse_line ['a', ' ', 'b', ' ', '[', ' ', ']', ' ', '/', 'd', '/']
      = some ([], some ⟨['a'], ['b'], some [], none, some [['d']]⟩) ∧
    (⟨['a'], ['b'], some [], none, some [['d']]⟩ : CedictEntry).pinyin
      = some ([] : List Syllable) := by
  decide

/-- C2 (amended): an empty pinyin block interior yields pinyin = none, and a
non-empty interior yields Some of the tokenized sequence, which may be empty
when the interior contains no alphabetic run. -/
theorem pinyin_block_line (T S PY D1 : Str)
    (hT : T ≠ []) (hT2 : ∀ c ∈ T, isSpaceTab c = false)
    (hS : S ≠ []) (hS2 : ∀ c ∈ S, isSpaceTab c = false)
    (hPYb : ∀ c ∈ PY, c ≠ ']')
    (hD1 : D1 ≠ []) (hD1c : ∀ c ∈ D1, c ≠ '/') :
    parse_line (T ++ (' ' :: (S ++ (' ' :: ('[' :: (PY ++ (']' :: (' ' :: ('/' :: (D1 ++ ['/']))))))))))
      = some ([], some ⟨T, S, if PY = [] then none else some (syllables PY).2,
          none, some [trim D1]⟩) := by
  have hPYb2 : ∀ c ∈ PY, nonBracket c = true := fun c hc => by simp [nonBracket, hPYb c hc]
  have hD1s : ∀ c ∈ D1, nonSlash c = true := fun c hc => by simp [nonSlash, hD1c c hc]
  apply parse_line_of_entry
  rw [cedict_entry_calc T S PY (' ' :: ('/' :: (D1 ++ ['/']))) hT hT2 hS hS2 hPYb2]
  have ht1 : space1 (' ' :: ('/' :: (D1 ++ ['/']))) = some ('/' :: (D1 ++ ['/'])) :=
    space1_cons ' ' ('/' :: (D1 ++ ['/'])) (by decide)
      (fun d r2 hd => by rw [(List.cons.inj hd).1.symm]; decide)
  have ht2 : jyutping ('/' :: (D1 ++ ['/'])) = none :=
    jyutping_not_open '/' (D1 ++ ['/']) (by decide)
  have ht3 : space0 ('/' :: (D1 ++ ['/'])) = '/' :: (D1 ++ ['/']) :=
    space0_cons_false '/' (D1 ++ ['/']) (by decide)
  have ht4 : definitions ('/' :: (D1 ++ ['/'])) = some ([], some [trim D1]) :=
    definitions_one D1 hD1 hD1s
  simp only [ht1, optP, ht2, ht3, ht4]

/-- C2 witness: the amended theorem applied to the concrete line a b [c1] /d/. -/
theorem pinyin_block_line_witness :
    parse_line (['a'] ++ (' ' :: (['b'] ++ (' ' :: ('[' :: (['c', '1'] ++ (']' :: (' ' :: ('/' :: (['d'] ++ ['/']))))))))))
      = some ([], some ⟨['a'], ['b'],
          if (['c', '1'] : Str) = [] then none else some (syllables ['c', '1']).2,
          none, some [trim ['d']]⟩) :=
  pinyin_block_line ['a'] ['b'] ['c', '1'] ['d']
    (by decide) (by decide) (by decide) (by decide) (by decide) (by decide) (by decide)

/-- C3 counterexample: the line a b [c1] followed by a space has a remainder
with no slash, yet parse_line succeeds with definitions = none instead of
failing, contradicting the claim that such a line does not parse. -/
theorem no_slash_cex :
    parse_line ['a', ' ', 'b', ' ', '[', 'c', '1', ']', ' ']
      = some ([], some ⟨['a'], ['b'], some [⟨['c'], ['1']⟩], none, none⟩) := by
  decide

/-- C3 (amended): the definitions parser never fails on slash-free input; it
consumes nothing and yields none, and a line whose remainder after the
pronunciation block is only whitespace parses successfully with
definitions = none. -/
theorem no_slash_definitions_line (T S PY W : Str)
    (hT : T ≠ []) (hT2 : ∀ c ∈ T, isSpaceTab c = false)
    (hS : S ≠ []) (hS2 : ∀ c ∈ S, isSpaceTab c = false)
    (hPYb : ∀ c ∈ PY, c ≠ ']')
    (hW : W ≠ []) (hWs : ∀ c ∈ W, isSpaceTab c = true) :
    (∀ i : Str, (∀ c ∈ i, c ≠ '/') → definitions i = some (i, none)) ∧
    parse_line (T ++ (' ' :: (S ++ (' ' :: ('[' :: (PY ++ (']' :: W)))))))
      = some ([], some ⟨T, S, if PY = [] then none else some (syllables PY).2,
          none, none⟩) := by
  have hPYb2 : ∀ c ∈ PY, nonBracket c = true := fun c hc => by simp [nonBracket, hPYb c hc]
  constructor
  · intro i hi
    exact definitions_noslash i (fun c hc => by simp [nonSlash, hi c hc])
  · apply parse_line_of_entry
    rw [cedict_entry_calc T S PY W hT hT2 hS hS2 hPYb2]
    have ht1 : space1 W = some [] := space1_all W hW hWs
    have ht2 : jyutping ([] : Str) = none := rfl
    have ht3 : space0 ([] : Str) = [] := rfl
    have ht4 : definitions ([] : Str) = some ([], none) :=
      definitions_noslash [] (fun c hc => by cases hc)
    simp only [ht1, optP, ht2, ht3, ht4]

/-- C3 witness: the amended theorem applied to the concrete line a b [c1]
followed by one space. -/
theorem no_slash_definitions_line_witness :
    (∀ i : Str, (∀ c ∈ i, c ≠ '/') → definitions i = some (i, none)) ∧
    parse_line (['a'] ++ (' ' :: (['b'] ++ (' ' :: ('[' :: (['c', '1'] ++ (']' :: [' '])))))))
      = some ([], some ⟨['a'], ['b'],
          if (['c', '1'] : Str) = [] then none else some (syllables ['c', '1']).2,
          none, none⟩) :=
  no_slash_definitions_line ['a'] ['b'] ['c', '1'] [' ']
    (by decide) (by decide) (by decide) (by decide) (by decide) (by decide) (by decide)

/-- C4 counterexample: the pinyin interior c1!! has trailing residue that is
neither alphabetic, digit nor space; the tokenizer stops before it, the
residue is silently ignored, and the line still parses, contradicting the
claim that such an interior is not accepted. -/
theorem syllables_residue_cex :
    parse_line ['a', ' ', 'b', ' ', '[', 'c', '1', '!', '!', ']', ' ', '/', 'd', '/']
      = some ([], some ⟨['a'], ['b'], some [⟨['c'], ['1']⟩], none, some [['d']]⟩) ∧
    (syllables ['c', '1', '!', '!']).1 = ['!', '!'] := by
  decide

/-- C4 (amended): the tokenizer repeats the syllable step only until no
further syllable matches; the pinyin parser then accepts the block and
silently discards the unconsumed residue of the interior. -/
theorem pinyin_discards_residue (PY r : Str) (hPY : PY ≠ [])
    (hPYb : ∀ c ∈ PY, c ≠ ']') :
    pinyin ('[' :: (PY ++ (']' :: r))) = some (r, some (syllables PY).2) ∧
      ∃ consumed, PY = consumed ++ (syllables PY).1 := by
  have hb : ∀ c ∈ PY, nonBracket c = true := fun c hc => by simp [nonBracket, hPYb c hc]
  constructor
  · have happ : pinyin ('[' :: (PY ++ (']' :: r)))
        = some (r, if PY = [] then none else some (syllables PY).2) := pinyin_app PY r hb
    rw [happ, if_neg hPY]
  · exact syllables_suffix PY

/-- C4 witness: the amended theorem applied to the interior c1!! whose
residue is the two exclamation marks. -/
theorem pinyin_discards_residue_witness :
    pinyin ('[' :: (['c', '1', '!', '!'] ++ (']' :: [])))
      = some ([], some (syllables ['c', '1', '!', '!']).2) ∧
      ∃ consumed, ['c', '1', '!', '!'] = consumed ++ (syllables ['c', '1', '!', '!']).1 :=
  pinyin_discards_residue ['c', '1', '!', '!'] [] (by decide) (by decide)

/-- C5 counterexample: the line a b [c1] /d/ ends in the closing slash of its
definitions list, and the trailing inline comment #/ begins with a hash, yet
appending a space and that comment changes the parsed entry (the comment text
is absorbed into the definitions), contradicting the claim that any trailing
inline comment leaves the entry identical. -/
theorem comment_extension_cex :
    parse_line ['a', ' ', 'b', ' ', '[', 'c', '1', ']', ' ', '/', 'd', '/']
      = some ([], some ⟨['a'], ['b'], some [⟨['c'], ['1']⟩], none, some [['d']]⟩) ∧
    parse_line (['a', ' ', 'b', ' ', '[', 'c', '1', ']', ' ', '/', 'd', '/'] ++ (' ' :: ('#' :: ['/'])))
      = some ([], some ⟨['a'], ['b'], some [⟨['c'], ['1']⟩], none, some [['d'], ['#']]⟩) ∧
    (⟨['a'], ['b'], some [⟨['c'], ['1']⟩], none, some [['d']]⟩ : CedictEntry)
      ≠ ⟨['a'], ['b'], some [⟨['c'], ['1']⟩], none, some [['d'], ['#']]⟩ := by
  decide

/-- C5 (amended): for every valid entry line that ends in the closing slash of
its definitions list, appending whitespace and a trailing inline comment whose
text contains no slash (and no line ending) parses to the identical entry: the
comment is excluded from the definitions and from every other field.  The
slash-free restriction on the comment text is forced by the last-slash
heuristic of the definitions parser, as the counterexample shows. -/
theorem comment_extension (L W C : Str) (e : CedictEntry)
    (hL : parse_line L = some ([], some e))
    (hlast : L.getLast? = some '/')
    (hW : ∀ c ∈ W, isSpaceTab c = true)
    (hC1 : ∀ c ∈ C, c ≠ '/')
    (hC2 : ∀ c ∈ C, c ≠ '\r' ∧ c ≠ '\n') :
    parse_line (L ++ (W ++ ('#' :: C))) = some ([], some e) := by
  have hCs : ∀ c ∈ C, nonSlash c = true := fun c hc => by simp [nonSlash, hC1 c hc]
  have hCn : ∀ c ∈ C, nonCrNl c = true := fun c hc => by
    have h2 := hC2 c hc
    simp [nonCrNl, h2.1, h2.2]
  have hXs : ∀ c ∈ W ++ ('#' :: C), nonSlash c = true := by
    intro c hc
    rcases List.mem_append.mp hc with h1 | h1
    · have h2 := hW c h1
      have h3 : c = ' ' ∨ c = '\t' := by
        unfold isSpaceTab at h2
        rcases (Bool.or_eq_true _ _).mp h2 with h4 | h4
        · exact Or.inl (by simpa using h4)
        · exact Or.inr (by simpa using h4)
      rcases h3 with h4 | h4 <;> subst h4 <;> decide
    · rcases List.mem_cons.mp h1 with h2 | h2
      · subst h2; decide
      · exact hCs c h2
  have hone : ∃ i1, cedict_entry L = some (i1, e) := by
    unfold parse_line at hL
    cases hopt : optP cedict_entry L with
    | mk i1 entry =>
      have hL2 : (match optP comment (space0 i1) with
          | (i3, _) => if i3 = [] then some (i3, entry) else none) = some ([], some e) := by
        rw [hopt] at hL
        exact hL
      cases hopt2 : optP comment (space0 i1) with
      | mk i3 w =>
        rw [hopt2] at hL2
        have hL3 : (if i3 = [] then some (i3, entry) else none) = some ([], some e) := hL2
        by_cases hi3 : i3 = []
        · rw [if_pos hi3] at hL3
          injection hL3 with hp
          injection hp with hri hen
          refine ⟨i1, ?_⟩
          rw [hen] at hopt
          exact optP_eq_some cedict_entry L i1 e hopt
        · rw [if_neg hi3] at hL3
          cases hL3
  obtain ⟨i1, hce0⟩ := hone
  unfold cedict_entry at hce0
  cases hnw1 : not_whitespace L with
  | none => simp [hnw1] at hce0
  | some p1 =>
    obtain ⟨j1, T⟩ := p1
    simp only [hnw1] at hce0
    cases hsp1 : space1 j1 with
    | none => simp [hsp1] at hce0
    | some i2 =>
      simp only [hsp1] at hce0
      cases hnw2 : not_whitespace i2 with
      | none => simp [hnw2] at hce0
      | some p2 =>
        obtain ⟨i3, S⟩ := p2
        simp only [hnw2] at hce0
        cases hsp2 : space1 i3 with
        | none => simp [hsp2] at hce0
        | some i4 =>
          simp only [hsp2] at hce0
          cases hpy : pinyin i4 with
          | none => simp [hpy] at hce0
          | some p3 =>
            obtain ⟨i5, py⟩ := p3
            simp only [hpy] at hce0
            cases hsp3 : space1 i5 with
            | none => simp [hsp3] at hce0
            | some i6 =>
              simp only [hsp3] at hce0
              have hnw1x : not_whitespace (L ++ (W ++ ('#' :: C)))
                  = some (j1 ++ (W ++ ('#' :: C)), T) :=
                not_whitespace_ext L j1 T _ hnw1 (space1_ne_nil j1 i2 hsp1)
              have hi2ne : i2 ≠ [] := not_whitespace_ne_nil i2 i3 S hnw2
              have hsp1x : space1 (j1 ++ (W ++ ('#' :: C)))
                  = some (i2 ++ (W ++ ('#' :: C))) :=
                space1_ext j1 i2 _ hsp1 hi2ne
              have hi4ne : i4 ≠ [] := by
                intro h4
                rw [h4] at hpy
                have h5 : (none : Option (Str × Option (List Syllable))) = some (i5, py) := hpy
                cases h5
              have hnw2x : not_whitespace (i2 ++ (W ++ ('#' :: C)))
                  = some (i3 ++ (W ++ ('#' :: C)), S) :=
                not_whitespace_ext i2 i3 S _ hnw2 (space1_ne_nil i3 i4 hsp2)
              have hsp2x : space1 (i3 ++ (W ++ ('#' :: C)))
                  = some (i4 ++ (W ++ ('#' :: C))) :=
                space1_ext i3 i4 _ hsp2 hi4ne
              have hpyx : pinyin (i4 ++ (W ++ ('#' :: C)))
                  = some (i5 ++ (W ++ ('#' :: C)), py) :=
                pinyin_ext i4 i5 py _ hpy
              have hsufj1 : ∃ P, P ++ j1 = L :=
                ⟨T, ((not_whitespace_decomp L j1 T hnw1).1).symm⟩
              have hsufi2 : ∃ P, P ++ i2 = j1 :=
                ⟨j1.takeWhile isSpaceTab, ((space1_decomp j1 i2 hsp1).1).symm⟩
              have hsufi3 : ∃ P, P ++ i3 = i2 :=
                ⟨S, ((not_whitespace_decomp i2 i3 S hnw2).1).symm⟩
              have hsufi4 : ∃ P, P ++ i4 = i3 :=
                ⟨i3.takeWhile isSpaceTab, ((space1_decomp i3 i4 hsp2).1).symm⟩
              have hsufi5 : ∃ P, P ++ i5 = i4 := by
                obtain ⟨pint, hi4eq, _, _⟩ := pinyin_decomp i4 i5 py hpy
                exact ⟨'[' :: pint ++ [']'], by rw [hi4eq]; simp⟩
              have hsufi6 : ∃ P, P ++ i6 = i5 :=
                ⟨i5.takeWhile isSpaceTab, ((space1_decomp i5 i6 hsp3).1).symm⟩
              have hsufL6 : ∃ P, P ++ i6 = L :=
                suffix_trans (suffix_trans (suffix_trans (suffix_trans
                  (suffix_trans hsufj1 hsufi2) hsufi3) hsufi4) hsufi5) hsufi6
              cases i6 with
              | nil =>
                have hjynil : jyutping ([] : Str) = none := rfl
                simp only [optP, hjynil] at hce0
                have hdefnil : definitions (space0 ([] : Str)) = some ([], none) := by decide
                simp only [hdefnil] at hce0
                injection hce0 with hp
                injection hp with hi1 hee
                obtain ⟨hi5eq, hi5ne, hi5all, _⟩ := space1_decomp i5 [] hsp3
                rw [List.append_nil] at hi5eq
                have hi5sp : ∀ c ∈ i5, isSpaceTab c = true := by
                  intro c hc
                  apply hi5all
                  rw [← hi5eq]
                  exact hc
                have hsp3x : space1 (i5 ++ (W ++ ('#' :: C))) = some ('#' :: C) := by
                  have hassoc : i5 ++ (W ++ ('#' :: C)) = (i5 ++ W) ++ ('#' :: C) :=
                    (List.append_assoc i5 W ('#' :: C)).symm
                  rw [hassoc]
                  exact space1_app (i5 ++ W) ('#' :: C)
                    (fun hnil => space1_ne_nil i5 [] hsp3 (List.append_eq_nil.mp hnil).1)
                    (fun c hc => by
                      rcases List.mem_append.mp hc with h1 | h1
                      exacts [hi5sp c h1, hW c h1])
                    (fun d r2 hd => by rw [(List.cons.inj hd).1.symm]; decide)
                have hjx : jyutping ('#' :: C) = none := jyutping_not_open '#' C (by decide)
                have hs0x : space0 ('#' :: C) = '#' :: C := space0_cons_false '#' C (by decide)
                have hdx : definitions ('#' :: C) = some ('#' :: C, none) :=
                  definitions_noslash ('#' :: C) (by
                    intro c hc
                    rcases List.mem_cons.mp hc with h1 | h1
                    · subst h1; decide
                    · exact hCs c h1)
                have hfin : cedict_entry (L ++ (W ++ ('#' :: C))) = some ('#' :: C, e) := by
                  simp only [cedict_entry, hnw1x, hsp1x, hnw2x, hsp2x, hpyx, hsp3x, optP,
                    hjx, hs0x, hdx]
                  rw [← hee]
                exact parse_line_of_entry_comment (L ++ (W ++ ('#' :: C))) e [] C hfin
                  (fun c hc => by cases hc) hCn
              | cons c6 t6 =>
                have hd6 := space1_decomp i5 (c6 :: t6) hsp3
                have hc6sp : isSpaceTab c6 = false := hd6.2.2.2 c6 t6 rfl
                have hsp3x : space1 (i5 ++ (W ++ ('#' :: C)))
                    = some ((c6 :: t6) ++ (W ++ ('#' :: C))) :=
                  space1_ext i5 (c6 :: t6) _ hsp3 (by simp)
                cases hjy : jyutping (c6 :: t6) with
                | some p4 =>
                  obtain ⟨i7, v7⟩ := p4
                  simp only [optP, hjy] at hce0
                  cases hdef : definitions (space0 i7) with
                  | none => simp [hdef] at hce0
                  | some p5 =>
                    obtain ⟨i9, defs⟩ := p5
                    simp only [hdef] at hce0
                    injection hce0 with hp
                    injection hp with hi9 hee
                    have hsufi7 : ∃ P, P ++ i7 = c6 :: t6 := by
                      obtain ⟨jint, hi6eq, _, _, _⟩ := jyutping_decomp (c6 :: t6) i7 v7 hjy
                      exact ⟨'{' :: jint ++ ['}'], by rw [hi6eq]; simp⟩
                    have hsufs0 : ∃ P, P ++ space0 i7 = i7 :=
                      ⟨i7.takeWhile isSpaceTab, ((space0_decomp i7).1).symm⟩
                    have hsufi9 : ∃ P, P ++ i9 = space0 i7 :=
                      definitions_suffix (space0 i7) i9 defs hdef
                    obtain ⟨P9, hP9⟩ :=
                      suffix_trans (suffix_trans (suffix_trans hsufL6 hsufi7) hsufs0) hsufi9
                    have hi9nil : i9 = [] :=
                      rest_nil_of_last_slash L P9 i9 hP9 hlast
                        (definitions_rest_noslash (space0 i7) i9 defs hdef)
                    rw [hi9nil] at hdef
                    have hjyx : jyutping ((c6 :: t6) ++ (W ++ ('#' :: C)))
                        = some (i7 ++ (W ++ ('#' :: C)), v7) :=
                      jyutping_ext (c6 :: t6) i7 v7 _ hjy
                    by_cases hs0 : space0 i7 = []
                    · have hdefs_none : defs = none := by
                        rw [hs0] at hdef
                        have hdn : definitions ([] : Str) = some ([], none) := by decide
                        have h6 := hdn.symm.trans hdef
                        injection h6 with hp2
                        injection hp2 with h7 h8
                        exact h8.symm
                      have hs0x : space0 (i7 ++ (W ++ ('#' :: C))) = space0 (W ++ ('#' :: C)) :=
                        space0_all_ext i7 _ hs0
                      have hspW : space0 (W ++ ('#' :: C)) = '#' :: C :=
                        space0_app W ('#' :: C) hW
                          (fun d r2 hd => by rw [(List.cons.inj hd).1.symm]; decide)
                      have hdx : definitions ('#' :: C) = some ('#' :: C, none) :=
                        definitions_noslash ('#' :: C) (by
                          intro c hc
                          rcases List.mem_cons.mp hc with h1 | h1
                          · subst h1; decide
                          · exact hCs c h1)
                      have hfin : cedict_entry (L ++ (W ++ ('#' :: C))) = some ('#' :: C, e) := by
                        simp only [cedict_entry, hnw1x, hsp1x, hnw2x, hsp2x, hpyx, hsp3x, optP,
                          hjyx, hs0x, hspW, hdx]
                        rw [← hee, hdefs_none]
                      exact parse_line_of_entry_comment (L ++ (W ++ ('#' :: C))) e [] C hfin
                        (fun c hc => by cases hc) hCn
                    · have hs0x : space0 (i7 ++ (W ++ ('#' :: C)))
                          = space0 i7 ++ (W ++ ('#' :: C)) :=
                        space0_ext i7 _ hs0
                      have hdx : definitions (space0 i7 ++ (W ++ ('#' :: C)))
                          = some ([] ++ (W ++ ('#' :: C)), defs) :=
                        definitions_ext (space0 i7) [] defs _ hdef hXs
                      have hfin : cedict_entry (L ++ (W ++ ('#' :: C)))
                          = some (W ++ ('#' :: C), e) := by
                        simp only [cedict_entry, hnw1x, hsp1x, hnw2x, hsp2x, hpyx, hsp3x, optP,
                          hjyx, hs0x, hdx, List.nil_append]
                        rw [← hee]
                      exact parse_line_of_entry_comment (L ++ (W ++ ('#' :: C))) e W C hfin hW hCn
                | none =>
                  simp only [optP, hjy] at hce0
                  have hs06 : space0 (c6 :: t6) = c6 :: t6 := space0_cons_false c6 t6 hc6sp
                  rw [hs06] at hce0
                  cases hdef : definitions (c6 :: t6) with
                  | none => simp [hdef] at hce0
                  | some p5 =>
                    obtain ⟨i9, defs⟩ := p5
                    simp only [hdef] at hce0
                    injection hce0 with hp
                    injection hp with hi9 hee
                    have hsufi9 : ∃ P, P ++ i9 = c6 :: t6 :=
                      definitions_suffix (c6 :: t6) i9 defs hdef
                    obtain ⟨P9, hP9⟩ := suffix_trans hsufL6 hsufi9
                    have hi9nil : i9 = [] :=
                      rest_nil_of_last_slash L P9 i9 hP9 hlast
                        (definitions_rest_noslash (c6 :: t6) i9 defs hdef)
                    rw [hi9nil] at hdef
                    have hc6slash : c6 = '/' := by
                      by_contra hcc
                      by_cases hm : '/' ∈ c6 :: t6
                      · rw [definitions_fail_head c6 t6 hcc hm] at hdef
                        cases hdef
                      · have hall : ∀ c ∈ c6 :: t6, nonSlash c = true := fun c hc => by
                          have hcs2 : c ≠ '/' := fun he2 => hm (he2 ▸ hc)
                          simp [nonSlash, hcs2]
                        rw [definitions_noslash (c6 :: t6) hall] at hdef
                        injection hdef with hp2
                        injection hp2 with h7 h8
                        cases h7
                    subst hc6slash
                    have hjyx : jyutping (('/' :: t6) ++ (W ++ ('#' :: C))) = none :=
                      jyutping_not_open '/' (t6 ++ (W ++ ('#' :: C))) (by decide)
                    have hs06x : space0 (('/' :: t6) ++ (W ++ ('#' :: C)))
                        = ('/' :: t6) ++ (W ++ ('#' :: C)) :=
                      space0_cons_false '/' (t6 ++ (W ++ ('#' :: C))) (by decide)
                    have hdx : definitions (('/' :: t6) ++ (W ++ ('#' :: C)))
                        = some ([] ++ (W ++ ('#' :: C)), defs) :=
                      definitions_ext ('/' :: t6) [] defs _ hdef hXs
                    have hfin : cedict_entry (L ++ (W ++ ('#' :: C)))
                        = some (W ++ ('#' :: C), e) := by
                      simp only [cedict_entry, hnw1x, hsp1x, hnw2x, hsp2x, hpyx, hsp3x, optP,
                        hjyx, hs06x, hdx, List.nil_append]
                      rw [← hee]
                    exact parse_line_of_entry_comment (L ++ (W ++ ('#' :: C))) e W C hfin hW hCn

/-- C5 witness: the amended theorem applied to the line a b [c1] /d/ with the
trailing comment consisting of a hash and the word note. -/
theorem comment_extension_witness :
    parse_line (['a', ' ', 'b', ' ', '[', 'c', '1', ']', ' ', '/', 'd', '/']
        ++ ([' '] ++ ('#' :: [' ', 'n', 'o', 't', 'e'])))
      = some ([], some ⟨['a'], ['b'], some [⟨['c'], ['1']⟩], none, some [['d']]⟩) :=
  comment_extension ['a', ' ', 'b', ' ', '[', 'c', '1', ']', ' ', '/', 'd', '/']
    [' '] [' ', 'n', 'o', 't', 'e']
    ⟨['a'], ['b'], some [⟨['c'], ['1']⟩], none, some [['d']]⟩
    (by decide) (by decide) (by decide) (by decide) (by decide)

/-- C6: parse_line succeeds only when the whole line is consumed: whenever it
returns a result, the remaining input it reports is empty. -/
theorem parse_line_all_consuming (i r : Str) (e : Option CedictEntry)
    (h : parse_line i = some (r, e)) : r = [] := by
  unfold parse_line at h
  cases hopt : optP cedict_entry i with
  | mk i1 entry =>
    have h1 : (match optP comment (space0 i1) with
        | (i3, _) => if i3 = [] then some (i3, entry) else none) = some (r, e) := by
      have h0 : (match optP cedict_entry i with
          | (i1, entry) =>
            match optP comment (space0 i1) with
            | (i3, _) => if i3 = [] then some (i3, entry) else none) = some (r, e) := h
      rw [hopt] at h0
      exact h0
    cases hopt2 : optP comment (space0 i1) with
    | mk i3 w =>
      rw [hopt2] at h1
      have h2 : (if i3 = [] then some (i3, entry) else none) = some (r, e) := h1
      by_cases hi3 : i3 = []
      · rw [if_pos hi3] at h2
        injection h2 with hp
        injection hp with hr hv
        rw [← hr, hi3]
      · rw [if_neg hi3] at h2
        cases h2

/-- C6 witness: the theorem applied to the line consisting of a single hash. -/
theorem parse_line_all_consuming_witness : ([] : Str) = [] :=
  parse_line_all_consuming ['#'] [] none (by decide)

/-- C7 counterexample: the full-line comment #a b [c1] /d/ (a hash followed
by the rest of the line) happens to match the entry grammar, so parse_line
returns an entry whose traditional field is #a instead of the claimed
success-with-no-entry. -/
theorem comment_line_entry_cex :
    parse_line ['#', 'a', ' ', 'b', ' ', '[', 'c', '1', ']', ' ', '/', 'd', '/']
      = some ([], some ⟨['#', 'a'], ['b'], some [⟨['c'], ['1']⟩], none, some [['d']]⟩) := by
  decide

/-- C7 (amended): a blank line always yields success with no entry; a
full-line comment yields success with no entry provided the comment text does
not itself match the entry grammar. -/
theorem blank_or_comment_line (i : Str)
    (h : (∀ c ∈ i, isSpaceTab c = true) ∨
      (∃ ctext, i = '#' :: ctext ∧ (∀ c ∈ ctext, c ≠ '\r' ∧ c ≠ '\n') ∧
        cedict_entry i = none)) :
    parse_line i = some ([], none) := by
  rcases h with hblank | ⟨ctext, hi, hcr, hce⟩
  · have htw : i.takeWhile nonSpaceTab = [] := by
      cases i with
      | nil => rfl
      | cons a t =>
        have ha := hblank a (by simp)
        simp [List.takeWhile_cons, nonSpaceTab, ha]
    have hnw : not_whitespace i = none := by
      unfold not_whitespace
      rw [htw]
      rfl
    have hce : cedict_entry i = none := by
      simp only [cedict_entry, hnw]
    unfold parse_line
    rw [optP_none cedict_entry i hce]
    have hs0 : space0 i = [] := (takeWhile_all isSpaceTab i hblank).2
    simp only [hs0]
    rfl
  · subst hi
    unfold parse_line
    rw [optP_none cedict_entry ('#' :: ctext) hce]
    have hs0 : space0 ('#' :: ctext) = '#' :: ctext := space0_cons_false '#' ctext (by decide)
    have hct : ∀ c ∈ ctext, nonCrNl c = true := fun c hc => by
      have h2 := hcr c hc
      simp [nonCrNl, h2.1, h2.2]
    have hcm : optP comment ('#' :: ctext) = ([], some (['#'], ctext)) :=
      optP_some comment ('#' :: ctext) [] (['#'], ctext) (comment_full ctext hct)
    simp only [hs0, hcm]
    rfl

/-- C7 witness: the amended theorem applied to a comment line. -/
theorem blank_or_comment_line_witness :
    parse_line ['#', ' ', 'h', 'i'] = some ([], none) :=
  blank_or_comment_line ['#', ' ', 'h', 'i']
    (Or.inr ⟨[' ', 'h', 'i'], rfl, by decide, by decide⟩)

/-- C8 counterexample: the entry line a b [c1] {} /d/ with an empty jyutping
interior does not parse at all (is_not("}") requires at least one character),
contradicting the claim that an empty jyutping block yields an empty syllable
sequence without failing. -/
theorem empty_jyutping_cex :
    parse_line ['a', ' ', 'b', ' ', '[', 'c', '1', ']', ' ', '{', '}', ' ', '/', 'd', '/']
      = none := by
  decide

/-- C8 (amended): an empty-interior jyutping block never matches the jyutping
parser, and an entry line containing one never produces an entry: the
unconsumed block makes the definitions step, and with it the whole line,
fail. -/
theorem empty_jyutping_rejected (T S PY D1 rest : Str)
    (hT : T ≠ []) (hT2 : ∀ c ∈ T, isSpaceTab c = false)
    (hS : S ≠ []) (hS2 : ∀ c ∈ S, isSpaceTab c = false)
    (hPYb : ∀ c ∈ PY, c ≠ ']') :
    jyutping ('{' :: ('}' :: rest)) = none ∧
    ∀ r e, parse_line (T ++ (' ' :: (S ++ (' ' :: ('[' :: (PY ++ (']' :: (' ' :: ('{' ::
        ('}' :: (' ' :: ('/' :: (D1 ++ ['/'])))))))))))))
      ≠ some (r, some e) := by
  constructor
  · exact jyutping_empty_interior rest
  · have hPYb2 : ∀ c ∈ PY, nonBracket c = true := fun c hc => by simp [nonBracket, hPYb c hc]
    apply parse_line_no_entry
    rw [cedict_entry_calc T S PY
      (' ' :: ('{' :: ('}' :: (' ' :: ('/' :: (D1 ++ ['/'])))))) hT hT2 hS hS2 hPYb2]
    have ht1 : space1 (' ' :: ('{' :: ('}' :: (' ' :: ('/' :: (D1 ++ ['/']))))))
        = some ('{' :: ('}' :: (' ' :: ('/' :: (D1 ++ ['/']))))) :=
      space1_cons ' ' ('{' :: ('}' :: (' ' :: ('/' :: (D1 ++ ['/']))))) (by decide)
        (fun d r2 hd => by rw [(List.cons.inj hd).1.symm]; decide)
    have ht2 : jyutping ('{' :: ('}' :: (' ' :: ('/' :: (D1 ++ ['/']))))) = none :=
      jyutping_empty_interior (' ' :: ('/' :: (D1 ++ ['/'])))
    have ht3 : space0 ('{' :: ('}' :: (' ' :: ('/' :: (D1 ++ ['/'])))))
        = '{' :: ('}' :: (' ' :: ('/' :: (D1 ++ ['/'])))) :=
      space0_cons_false '{' ('}' :: (' ' :: ('/' :: (D1 ++ ['/'])))) (by decide)
    have ht4 : definitions ('{' :: ('}' :: (' ' :: ('/' :: (D1 ++ ['/']))))) = none := by
      apply definitions_fail_head '{' ('}' :: (' ' :: ('/' :: (D1 ++ ['/'])))) (by decide)
      simp
    simp only [ht1, optP, ht2, ht3, ht4]

/-- C8 witness: the amended theorem applied to the line a b [c1] {} /d/. -/
theorem empty_jyutping_rejected_witness :
    jyutping ('{' :: ('}' :: ([] : Str))) = none ∧
    ∀ r e, parse_line (['a'] ++ (' ' :: (['b'] ++ (' ' :: ('[' :: (['c', '1'] ++ (']' :: (' ' :: ('{' ::
        ('}' :: (' ' :: ('/' :: (['d'] ++ ['/'])))))))))))))
      ≠ some (r, some e) :=
  empty_jyutping_rejected ['a'] ['b'] ['c', '1'] ['d'] []
    (by decide) (by decide) (by decide) (by decide) (by decide)

/-- C9: whenever parse_line fails or succeeds without an entry (blank lines
and comment lines included), CedictEntry.new returns the error whose Display
text is "invalid cedict entry input". -/
theorem new_error_on_failure (i : Str)
    (h : parse_line i = none ∨ ∃ r, parse_line i = some (r, none)) :
    CedictEntry.new i = Except.error ⟨⟩ ∧
      CedictEntryError.message = "invalid cedict entry input" := by
  refine ⟨?_, rfl⟩
  unfold CedictEntry.new
  rcases h with h | ⟨r, h⟩
  · rw [h]
    rfl
  · rw [h]
    rfl

/-- C9 witness: the theorem applied to the malformed line hi. -/
theorem new_error_on_failure_witness :
    CedictEntry.new ['h', 'i'] = Except.error ⟨⟩ ∧
      CedictEntryError.message = "invalid cedict entry input" :=
  new_error_on_failure ['h', 'i'] (Or.inl (by decide))

/-- C10: Cedict.from_str always returns Ok, and its entries are exactly the
lines on which CedictEntry.new succeeds, kept in original order with failed
lines omitted. -/
theorem from_str_total (s : Str) :
    ∃ d : Cedict, Cedict.from_str s = Except.ok d ∧
      d.entries = (rustLines s).filterMap (fun l => (CedictEntry.new l).toOption) :=
  ⟨⟨(rustLines s).filterMap (fun l => (CedictEntry.new l).toOption)⟩, rfl, rfl⟩

end Cccedict
